import Mathlib

/-!
Verification development for the attribution core of the bloaty size
profiler (src/bloaty.cc, src/bloaty.h, src/elf.cc).

The C++ code is shallowly embedded:
* `uint64_t` addresses become `Nat` with explicit reduction modulo 2^64
  at the arithmetic operations that can wrap in the source;
* `int64_t` totals become `Int`; the overflow check of `CheckedAdd`
  (which throws in the source) is an `Option`;
* `std::map<uint64_t, Entry>` becomes a key-sorted association list
  (every map the program builds is key-sorted; the embedding of each
  operation mirrors the source's iterator walk on that representation);
* `std::unordered_map<std::string, ...>` (Rollup children) becomes a
  key-sorted association list, the canonical representation of its
  abstract finite-map state.

Definitions named after source functions follow the source line by line;
the few definitions that instead transcribe the specification's words
say so in their doc comments.
-/

namespace BloatyModel

/-- The modulus of `uint64_t` arithmetic, 2^64. -/
def u64size : Nat := 18446744073709551616

/-- `UINT64_MAX` (equal to `UINTPTR_MAX` on the 64-bit platforms the
source targets), used by the source as the no-translation sentinel of
`Entry::other_start` and as the iteration sentinel of `ComputeRollup`. -/
def u64max : Nat := 18446744073709551615

theorem u64max_lt_u64size : u64max < u64size := by decide

/-- Mapped value of `RangeMap::Map` (bloaty.h:398, `struct Entry`): the
entry covers `[start, end)` where `start` is the map key; `other_start`
is `UINT64_MAX` when the entry carries no translation. -/
structure Entry where
  label : String
  end_ : Nat
  other_start : Nat
deriving DecidableEq, Repr

/-- `RangeMap::Map = std::map<uint64_t, Entry>` as a key-sorted
association list. -/
abbrev RangeMap := List (Nat × Entry)

/-- `RangeMap::EntryContains` (bloaty.h:412): `start ≤ addr < end`. -/
def EntryContains (p : Nat × Entry) (addr : Nat) : Prop :=
  p.1 ≤ addr ∧ addr < p.2.end_

instance (p : Nat × Entry) (addr : Nat) : Decidable (EntryContains p addr) :=
  instDecidableAnd

/-- An address of the domain of the partial function a RangeMap
represents: some entry contains it. -/
def covers (m : RangeMap) (a : Nat) : Prop := ∃ p ∈ m, p.1 ≤ a ∧ a < p.2.end_

instance (m : RangeMap) (a : Nat) : Decidable (covers m a) :=
  List.decidableBEx _ m

/-- Intervals are non-degenerate: each entry's key precedes its end. -/
def EntryOk (p : Nat × Entry) : Prop := p.1 < p.2.end_

instance : DecidablePred EntryOk := fun p => Nat.decLt p.1 p.2.end_

/-- Adjacent entries do not overlap: the earlier interval ends no later
than the later one starts (`entries[i].end ≤ entries[i+1].start`). -/
def Before (p q : Nat × Entry) : Prop := p.2.end_ ≤ q.1

instance : DecidableRel Before := fun p q => Nat.decLe p.2.end_ q.1

/-- Well-formedness of a RangeMap: non-degenerate entries, in key order,
pairwise non-overlapping.  This is the spec §3 invariant together with
the sortedness `std::map` maintains by construction. -/
def WF (m : RangeMap) : Prop := (∀ p ∈ m, EntryOk p) ∧ List.Chain' Before m

instance decidableChainBefore : ∀ l : List (Nat × Entry), Decidable (List.Chain' Before l)
  | [] => isTrue List.chain'_nil
  | [p] => isTrue (List.chain'_singleton p)
  | p :: q :: rest =>
    have : Decidable (List.Chain' Before (q :: rest)) := decidableChainBefore (q :: rest)
    decidable_of_iff (Before p q ∧ List.Chain' Before (q :: rest)) List.chain'_cons.symm

instance (m : RangeMap) : Decidable (WF m) :=
  inferInstanceAs (Decidable ((∀ p ∈ m, EntryOk p) ∧ List.Chain' Before m))

/-- `RangeMap::FindContainingOrAfter` (bloaty.cc:980), expressed as a
split of the key-sorted mapping list: the first component holds the
entries strictly before the returned iterator, the second is the suffix
the iterator points into.  On a key-sorted non-overlapping map the
returned position is the entry containing `addr` if one exists, else
the first entry with key greater than `addr` (`upper_bound`). -/
def FindContainingOrAfter (addr : Nat) :
    List (Nat × Entry) → List (Nat × Entry) × List (Nat × Entry)
  | [] => ([], [])
  | (s, e) :: rest =>
    if addr < s then ([], (s, e) :: rest)
    else if addr < e.end_ then ([], (s, e) :: rest)
    else
      let p := FindContainingOrAfter addr rest
      ((s, e) :: p.1, p.2)

/-- The translation base recorded for a sub-range inserted at `addr` by
`AddDualRange` (bloaty.cc:1045): the `UINT64_MAX` sentinel propagates,
otherwise `addr - base + otheraddr` in uint64 arithmetic (in every call
`base ≤ addr`, so natural subtraction agrees with the source). -/
def subOther (base otheraddr addr : Nat) : Nat :=
  if otheraddr = u64max then u64max else (addr - base + otheraddr) % u64size

/-- The insertion loop of `RangeMap::AddDualRange` (bloaty.cc:1014,
`while (1) ...`), acting on the iterator suffix returned by
`FindContainingOrAfter`.  `addr` is the current write position, `end_`
the end of the range being inserted.  The inner `while` that skips an
existing entry containing `addr` becomes the first branch (the skipped
entry stays in the map; `addr` advances to its end).  A hinted
`std::map::insert` in front of the suffix becomes a cons.  In the third
branch the source inserts the sub-range clipped at the next entry's
start (`this_end = min(end, it->first) = it->first`) and then, back at
the top of the loop, skips that next entry; the branch performs both
steps (on a well-formed map the next entry always contains the new
`addr = it->first`, so the skip always happens). -/
def AddDualGo (val : String) (base otheraddr : Nat) :
    Nat → Nat → List (Nat × Entry) → List (Nat × Entry)
  | addr, end_, [] =>
    if end_ ≤ addr then []
    else [(addr, ⟨val, end_, subOther base otheraddr addr⟩)]
  | addr, end_, (s, e) :: rest =>
    if s ≤ addr ∧ addr < e.end_ then
      (s, e) :: AddDualGo val base otheraddr e.end_ end_ rest
    else if end_ ≤ addr then (s, e) :: rest
    else if s < end_ then
      (addr, ⟨val, s, subOther base otheraddr addr⟩) :: (s, e) ::
        AddDualGo val base otheraddr e.end_ end_ rest
    else
      (addr, ⟨val, end_, subOther base otheraddr addr⟩) :: (s, e) :: rest

/-- `RangeMap::AddDualRange` (bloaty.cc:1005).  `size == 0` inserts
nothing; already-covered sub-ranges are skipped (first-writer-wins);
the `uint64_t` computation `end = addr + size` wraps as in the source. -/
def AddDualRange (m : RangeMap) (addr size otheraddr : Nat) (val : String) : RangeMap :=
  if size = 0 then m
  else
    let p := FindContainingOrAfter addr m
    p.1 ++ AddDualGo val addr otheraddr addr ((addr + size) % u64size) p.2

/-- `RangeMap::AddRange` (bloaty.cc:1001): `AddDualRange` with the
`UINT64_MAX` no-translation sentinel. -/
def AddRange (m : RangeMap) (addr size : Nat) (val : String) : RangeMap :=
  AddDualRange m addr size u64max val

/-- `RangeMap::TranslateAndTrimRangeWithEntry` (bloaty.cc:948): clip
`[addr, end)` to the translator entry `(s, e)`; `none` when the overlap
is empty or the entry has no translation, else the translated start and
the clipped size. -/
def TranslateAndTrimRangeWithEntry (s : Nat) (e : Entry) (addr end_ : Nat) :
    Option (Nat × Nat) :=
  let a := max addr s
  let b := min end_ e.end_
  if b ≤ a ∨ e.other_start = u64max then none
  else some ((a - s + e.other_start) % u64size, b - a)

/-- The translator walk of `RangeMap::AddRangeWithTranslation`
(bloaty.cc:1072, `while (it != translator.mappings_.end() && it->first <
end)`): for every translator entry starting before `end_`, add the
translated clipped sub-range to the other map. -/
def AddTransGo (val : String) (addr end_ : Nat) :
    List (Nat × Entry) → RangeMap → RangeMap
  | [], other => other
  | (s, e) :: rest, other =>
    if s < end_ then
      match TranslateAndTrimRangeWithEntry s e addr end_ with
      | some (a, sz) => AddTransGo val addr end_ rest (AddRange other a sz val)
      | none => AddTransGo val addr end_ rest other
    else other

/-- `RangeMap::AddRangeWithTranslation` (bloaty.cc:1060).  Returns the
updated self map (a plain `AddRange`) and the updated other map. -/
def AddRangeWithTranslation (m : RangeMap) (addr size : Nat) (val : String)
    (translator : RangeMap) (other : RangeMap) : RangeMap × RangeMap :=
  (AddRange m addr size val,
   AddTransGo val addr ((addr + size) % u64size)
     (FindContainingOrAfter addr translator).2 other)

/-- Range maps reachable from the empty map through the documented
mutating operations.  The two `AddRangeWithTranslation` constructors
cover the map mutated as `this` and the map mutated as the translation
target `other` (with arbitrary translator and source maps). -/
inductive Built : RangeMap → Prop where
  | empty : Built []
  | addRange (m : RangeMap) (addr size : Nat) (val : String) :
      Built m → Built (AddRange m addr size val)
  | addDualRange (m : RangeMap) (addr size otheraddr : Nat) (val : String) :
      Built m → Built (AddDualRange m addr size otheraddr val)
  | addTransSelf (m : RangeMap) (addr size : Nat) (val : String)
      (tr other : RangeMap) :
      Built m → Built (AddRangeWithTranslation m addr size val tr other).1
  | addTransOther (m : RangeMap) (addr size : Nat) (val : String)
      (tr other : RangeMap) :
      Built other → Built (AddRangeWithTranslation m addr size val tr other).2

/-! Non-overlap preservation (claim C1) and first-writer-wins (claim C2). -/

lemma addDualGo_wf (val : String) (base oa : Nat) (l : List (Nat × Entry)) :
    ∀ (addr end_ : Nat),
      (∀ p ∈ l, EntryOk p) → List.Chain' Before l →
      (∀ p ∈ l.head?, addr ≤ p.1 ∨ addr < p.2.end_) →
      (∀ p ∈ AddDualGo val base oa addr end_ l, EntryOk p) ∧
      List.Chain' Before (AddDualGo val base oa addr end_ l) ∧
      ∀ b, b ≤ addr → (∀ p ∈ l.head?, b ≤ p.1) →
        ∀ p ∈ (AddDualGo val base oa addr end_ l).head?, b ≤ p.1 := by
  induction l with
  | nil =>
    intro addr end_ _ _ _
    simp only [AddDualGo]
    split_ifs with h
    · simp
    · refine ⟨?_, List.chain'_singleton _, ?_⟩
      · intro p hp
        simp only [List.mem_singleton] at hp
        subst hp
        exact lt_of_not_le h
      · intro b hb _ p hp
        simp only [List.head?_cons, Option.mem_some_iff] at hp
        subst hp
        exact hb
  | cons q rest ih =>
    obtain ⟨s, e⟩ := q
    intro addr end_ hok hch hhead
    have hse : s < e.end_ := hok (s, e) (by simp)
    have hh : addr ≤ s ∨ addr < e.end_ := hhead (s, e) (by simp)
    rw [List.chain'_cons'] at hch
    obtain ⟨hglue, hch2⟩ := hch
    have hrest_ok : ∀ p ∈ rest, EntryOk p := fun p hp => hok p (by simp [hp])
    have hrest_head : ∀ p ∈ rest.head?, e.end_ ≤ p.1 ∨ e.end_ < p.2.end_ :=
      fun p hp => Or.inl (hglue p hp)
    simp only [AddDualGo]
    split_ifs with h1 h2 h3
    · -- entry contains addr: skip it, advance to its end
      obtain ⟨g1, g2, g3⟩ := ih e.end_ end_ hrest_ok hch2 hrest_head
      refine ⟨?_, ?_, ?_⟩
      · intro p hp
        rcases List.mem_cons.1 hp with hp | hp
        · subst hp; exact hse
        · exact g1 p hp
      · rw [List.chain'_cons']
        exact ⟨g3 e.end_ le_rfl hglue, g2⟩
      · intro b hb hbl p hp
        simp only [List.head?_cons, Option.mem_some_iff] at hp
        subst hp
        exact hbl (s, e) (by simp)
    · -- addr ≥ end: nothing left to insert
      refine ⟨hok, ?_, fun b _ hbl => hbl⟩
      rw [List.chain'_cons']
      exact ⟨hglue, hch2⟩
    · -- insert clipped at s, then skip (s, e)
      have haddr_s : addr < s := by
        push_neg at h1
        by_cases hsa : s ≤ addr
        · have := h1 hsa; omega
        · omega
      obtain ⟨g1, g2, g3⟩ := ih e.end_ end_ hrest_ok hch2 hrest_head
      refine ⟨?_, ?_, ?_⟩
      · intro p hp
        rcases List.mem_cons.1 hp with hp | hp
        · subst hp; exact haddr_s
        · rcases List.mem_cons.1 hp with hp | hp
          · subst hp; exact hse
          · exact g1 p hp
      · rw [List.chain'_cons', List.chain'_cons']
        refine ⟨?_, ⟨g3 e.end_ le_rfl hglue, g2⟩⟩
        intro y hy
        simp only [List.head?_cons, Option.mem_some_iff] at hy
        subst hy
        exact le_rfl
      · intro b hb _ p hp
        simp only [List.head?_cons, Option.mem_some_iff] at hp
        subst hp
        exact hb
    · -- insert the whole remaining range strictly before (s, e)
      refine ⟨?_, ?_, ?_⟩
      · intro p hp
        rcases List.mem_cons.1 hp with hp | hp
        · subst hp; exact lt_of_not_le h2
        · exact hok p hp
      · rw [List.chain'_cons']
        refine ⟨?_, by rw [List.chain'_cons']; exact ⟨hglue, hch2⟩⟩
        intro y hy
        simp only [List.head?_cons, Option.mem_some_iff] at hy
        subst hy
        exact le_of_not_lt h3
      · intro b hb _ p hp
        simp only [List.head?_cons, Option.mem_some_iff] at hp
        subst hp
        exact hb

lemma findCoA_append (addr : Nat) : ∀ m : List (Nat × Entry),
    (FindContainingOrAfter addr m).1 ++ (FindContainingOrAfter addr m).2 = m
  | [] => rfl
  | (s, e) :: rest => by
    simp only [FindContainingOrAfter]
    split_ifs with h1 h2
    · rfl
    · rfl
    · simpa using findCoA_append addr rest

lemma findCoA_pre (addr : Nat) : ∀ m : List (Nat × Entry),
    ∀ p ∈ (FindContainingOrAfter addr m).1, p.2.end_ ≤ addr
  | [] => by simp [FindContainingOrAfter]
  | (s, e) :: rest => by
    simp only [FindContainingOrAfter]
    split_ifs with h1 h2
    · simp
    · simp
    · intro p hp
      rcases List.mem_cons.1 hp with hp | hp
      · subst hp; exact le_of_not_lt h2
      · exact findCoA_pre addr rest p hp

lemma findCoA_suf_head (addr : Nat) : ∀ m : List (Nat × Entry),
    ∀ p ∈ (FindContainingOrAfter addr m).2.head?, addr ≤ p.1 ∨ addr < p.2.end_
  | [] => by simp [FindContainingOrAfter]
  | (s, e) :: rest => by
    simp only [FindContainingOrAfter]
    split_ifs with h1 h2
    · intro p hp
      simp only [List.head?_cons, Option.mem_some_iff] at hp
      subst hp
      exact Or.inl (le_of_lt h1)
    · intro p hp
      simp only [List.head?_cons, Option.mem_some_iff] at hp
      subst hp
      exact Or.inr h2
    · exact findCoA_suf_head addr rest

lemma addDualRange_wf {m : RangeMap} (h : WF m) (addr size oa : Nat) (val : String) :
    WF (AddDualRange m addr size oa val) := by
  unfold AddDualRange
  split_ifs with hs
  · exact h
  · obtain ⟨hok, hch⟩ := h
    have happ := findCoA_append addr m
    rw [← happ] at hok hch
    rw [List.chain'_append] at hch
    obtain ⟨hch1, hch2, hglue⟩ := hch
    have hokpre : ∀ p ∈ (FindContainingOrAfter addr m).1, EntryOk p :=
      fun p hp => hok p (List.mem_append_left _ hp)
    have hoksuf : ∀ p ∈ (FindContainingOrAfter addr m).2, EntryOk p :=
      fun p hp => hok p (List.mem_append_right _ hp)
    obtain ⟨g1, g2, g3⟩ := addDualGo_wf val addr oa (FindContainingOrAfter addr m).2
      addr ((addr + size) % u64size) hoksuf hch2 (findCoA_suf_head addr m)
    constructor
    · intro p hp
      rcases List.mem_append.1 hp with hp | hp
      · exact hokpre p hp
      · exact g1 p hp
    · rw [List.chain'_append]
      refine ⟨hch1, g2, ?_⟩
      intro x hx y hy
      exact g3 x.2.end_ (findCoA_pre addr m x (List.mem_of_mem_getLast? hx))
        (fun p hp => hglue x hx p hp) y hy

lemma addRange_wf {m : RangeMap} (h : WF m) (addr size : Nat) (val : String) :
    WF (AddRange m addr size val) :=
  addDualRange_wf h addr size u64max val

lemma addTransGo_wf (val : String) (addr end_ : Nat) (l : List (Nat × Entry)) :
    ∀ other : RangeMap, WF other → WF (AddTransGo val addr end_ l other) := by
  induction l with
  | nil => exact fun other h => h
  | cons q rest ih =>
    obtain ⟨s, e⟩ := q
    intro other h
    simp only [AddTransGo]
    split_ifs with h1
    · cases htt : TranslateAndTrimRangeWithEntry s e addr end_ with
      | none => simp only [htt]; exact ih other h
      | some q => simp only [htt]; exact ih _ (addRange_wf h _ _ _)
    · exact h

lemma wf_nil : WF ([] : RangeMap) := ⟨by simp, List.chain'_nil⟩

lemma built_wf {m : RangeMap} (h : Built m) : WF m := by
  induction h with
  | empty => exact wf_nil
  | addRange m a sz v _ ih => exact addRange_wf ih a sz v
  | addDualRange m a sz oa v _ ih => exact addDualRange_wf ih a sz oa v
  | addTransSelf m a sz v tr o _ ih => exact addRange_wf ih a sz v
  | addTransOther m a sz v tr o _ ih => exact addTransGo_wf v a _ _ o ih

lemma addDualGo_sublist (val : String) (base oa : Nat) (l : List (Nat × Entry)) :
    ∀ addr end_ : Nat, l.Sublist (AddDualGo val base oa addr end_ l) := by
  induction l with
  | nil =>
    intro addr end_
    simp only [AddDualGo]
    split_ifs <;> simp
  | cons q rest ih =>
    obtain ⟨s, e⟩ := q
    intro addr end_
    simp only [AddDualGo]
    split_ifs with h1 h2 h3
    · exact List.Sublist.cons₂ _ (ih _ _)
    · exact List.Sublist.refl _
    · exact List.Sublist.cons _ (List.Sublist.cons₂ _ (ih _ _))
    · exact List.Sublist.cons _ (List.Sublist.refl _)

lemma addDualRange_sublist (m : RangeMap) (addr size oa : Nat) (val : String) :
    m.Sublist (AddDualRange m addr size oa val) := by
  unfold AddDualRange
  split_ifs with hs
  · exact List.Sublist.refl m
  · conv_lhs => rw [← findCoA_append addr m]
    exact (addDualGo_sublist val addr oa _ addr _).append_left _

lemma addDualGo_covers (val : String) (base oa : Nat) (l : List (Nat × Entry)) :
    ∀ (addr end_ : Nat),
      (∀ p ∈ l, EntryOk p) → List.Chain' Before l →
      (∀ p ∈ l.head?, addr ≤ p.1 ∨ addr < p.2.end_) →
      ∀ x, addr ≤ x → x < end_ →
        covers (AddDualGo val base oa addr end_ l) x := by
  induction l with
  | nil =>
    intro addr end_ _ _ _ x hx1 hx2
    simp only [AddDualGo]
    rw [if_neg (by omega)]
    exact ⟨(addr, ⟨val, end_, subOther base oa addr⟩), by simp, hx1, hx2⟩
  | cons q rest ih =>
    obtain ⟨s, e⟩ := q
    intro addr end_ hok hch hhead x hx1 hx2
    have hse : s < e.end_ := hok (s, e) (by simp)
    have hh : addr ≤ s ∨ addr < e.end_ := hhead (s, e) (by simp)
    rw [List.chain'_cons'] at hch
    obtain ⟨hglue, hch2⟩ := hch
    have hrest_ok : ∀ p ∈ rest, EntryOk p := fun p hp => hok p (by simp [hp])
    have hrest_head : ∀ p ∈ rest.head?, e.end_ ≤ p.1 ∨ e.end_ < p.2.end_ :=
      fun p hp => Or.inl (hglue p hp)
    simp only [AddDualGo]
    split_ifs with h1 h2 h3
    · by_cases hxe : x < e.end_
      · exact ⟨(s, e), by simp, by omega, hxe⟩
      · obtain ⟨p, hp, hp2⟩ := ih e.end_ end_ hrest_ok hch2 hrest_head x (by omega) hx2
        exact ⟨p, by simp [hp], hp2⟩
    · omega
    · have haddr_s : addr < s := by
        push_neg at h1
        by_cases hsa : s ≤ addr
        · have := h1 hsa; omega
        · omega
      by_cases hxs : x < s
      · exact ⟨(addr, ⟨val, s, subOther base oa addr⟩), by simp, hx1, hxs⟩
      · by_cases hxe : x < e.end_
        · exact ⟨(s, e), by simp, by omega, hxe⟩
        · obtain ⟨p, hp, hp2⟩ := ih e.end_ end_ hrest_ok hch2 hrest_head x (by omega) hx2
          exact ⟨p, by simp [hp], hp2⟩
    · exact ⟨(addr, ⟨val, end_, subOther base oa addr⟩), by simp, hx1, hx2⟩

lemma addDualRange_covers {m : RangeMap} (h : WF m) (addr size oa : Nat)
    (val : String) (hno : addr + size < u64size) :
    ∀ x, addr ≤ x → x < addr + size → covers (AddDualRange m addr size oa val) x := by
  intro x hx1 hx2
  have hs : ¬ size = 0 := by omega
  unfold AddDualRange
  rw [if_neg hs, Nat.mod_eq_of_lt hno]
  obtain ⟨hok, hch⟩ := h
  have happ := findCoA_append addr m
  rw [← happ] at hok hch
  rw [List.chain'_append] at hch
  have hoksuf : ∀ p ∈ (FindContainingOrAfter addr m).2, EntryOk p :=
    fun p hp => hok p (List.mem_append_right _ hp)
  obtain ⟨p, hp, hp2⟩ := addDualGo_covers val addr oa (FindContainingOrAfter addr m).2
    addr (addr + size) hoksuf hch.2.1 (findCoA_suf_head addr m) x hx1 hx2
  exact ⟨p, List.mem_append_right _ hp, hp2⟩

/-- C1: every RangeMap built by any sequence of `AddRange`,
`AddDualRange` and `AddRangeWithTranslation` calls (on either of the two
maps the latter mutates) has non-degenerate entries, and any two
adjacent entries in key order satisfy `e_i.end ≤ e_{i+1}.start`; every
documented mutating operation preserves this non-overlap invariant. -/
theorem c1_rangemap_nonoverlap_invariant (m : RangeMap) (h : Built m) :
    (∀ p ∈ m, EntryOk p) ∧ List.Chain' Before m :=
  built_wf h

/-- Witness for C1: a concrete map built by two overlapping insertions. -/
theorem c1_rangemap_nonoverlap_invariant_witness :
    (∀ p ∈ AddRange (AddRange [] 0 100 "A") 50 100 "B", EntryOk p) ∧
    List.Chain' Before (AddRange (AddRange [] 0 100 "A") 50 100 "B") :=
  c1_rangemap_nonoverlap_invariant _
    (Built.addRange _ 50 100 "B" (Built.addRange _ 0 100 "A" Built.empty))

/-- C2: RangeMap insertion is first-writer-wins: `size == 0` is a no-op;
existing entries are never modified, relabelled or removed by a later
insertion; afterwards every address of the requested range is covered
(each uncovered sub-interval received a new entry); and the spec's
concrete scenario holds: into an empty map, `add(0,100,"A")` then
`add(50,100,"B")` yields exactly `[0,100) → A` and `[100,150) → B`, with
`[50,100)` not relabelled. -/
theorem c2_rangemap_add_first_writer_wins :
    (∀ (m : RangeMap) (a oa : Nat) (v : String), AddDualRange m a 0 oa v = m) ∧
    (∀ (m : RangeMap) (a sz oa : Nat) (v : String),
        m.Sublist (AddDualRange m a sz oa v)) ∧
    (∀ (m : RangeMap) (a sz oa : Nat) (v : String), WF m → a + sz < u64size →
        ∀ x, a ≤ x → x < a + sz → covers (AddDualRange m a sz oa v) x) ∧
    AddRange (AddRange [] 0 100 "A") 50 100 "B" =
      [(0, ⟨"A", 100, u64max⟩), (100, ⟨"B", 150, u64max⟩)] := by
  refine ⟨?_, ?_, ?_, ?_⟩
  · intro m a oa v
    simp [AddDualRange]
  · exact fun m a sz oa v => addDualRange_sublist m a sz oa v
  · exact fun m a sz oa v h hno => addDualRange_covers h a sz oa v hno
  · decide

/-- Witness for C2: the coverage clause applied at a concrete map. -/
theorem c2_rangemap_add_first_writer_wins_witness :
    covers (AddDualRange [(0, ⟨"A", 10, u64max⟩)] 5 10 u64max "B") 12 :=
  c2_rangemap_add_first_writer_wins.2.2.1 [(0, ⟨"A", 10, u64max⟩)] 5 10 u64max "B"
    (by decide) (by decide) 12 (by decide) (by decide)

/-! Rollup (bloaty.cc:396): a hierarchical tally of sizes. -/

/-- `INT64_MAX`. -/
def i64max : Int := 9223372036854775807

/-- `INT64_MIN`. -/
def i64min : Int := -9223372036854775808

/-- `CheckedAdd` (bloaty.cc:123): signed 64-bit addition;
`__builtin_add_overflow` computes the mathematical sum and fails iff it
is not representable in `int64_t`.  The thrown "integer overflow" error
is modelled as `none`. -/
def CheckedAdd (accum val : Int) : Option Int :=
  if accum + val < i64min ∨ i64max < accum + val then none
  else some (accum + val)

/-- `class Rollup` (bloaty.cc:396): signed totals plus children keyed by
label.  The `std::unordered_map` of children is embedded as an
association list kept sorted by key, the canonical representation of
the hash map's abstract state. -/
inductive Rollup where
  | mk (vm_total file_total : Int) (children : List (String × Rollup))

/-- The `vm_total_` field. -/
def Rollup.vm_total : Rollup → Int
  | .mk v _ _ => v

/-- The `file_total_` field. -/
def Rollup.file_total : Rollup → Int
  | .mk _ f _ => f

/-- The `children_` field. -/
def Rollup.children : Rollup → List (String × Rollup)
  | .mk _ _ c => c

/-- A default-constructed `Rollup()`. -/
def Rollup.empty : Rollup := .mk 0 0 []

/-- A computable strict lexicographic order on character data, used
only to keep the children association lists in a canonical key order
(any total order serves the representation). -/
def charsLt : List Char → List Char → Bool
  | [], [] => false
  | [], _ :: _ => true
  | _ :: _, [] => false
  | c :: cs, d :: ds =>
    if c.toNat < d.toNat then true
    else if d.toNat < c.toNat then false
    else charsLt cs ds

/-- The canonical key order on strings. -/
def strLt (a b : String) : Bool := charsLt a.data b.data

lemma charsLt_irrefl : ∀ l, charsLt l l = false
  | [] => rfl
  | c :: cs => by simp [charsLt, charsLt_irrefl cs]

lemma charsLt_asymm : ∀ l1 l2, charsLt l1 l2 = true → charsLt l2 l1 = false := by
  intro l1
  induction l1 with
  | nil =>
    intro l2 h
    cases l2 with
    | nil => simp [charsLt] at h
    | cons d ds => simp [charsLt]
  | cons c cs ih =>
    intro l2 h
    cases l2 with
    | nil => simp [charsLt] at h
    | cons d ds =>
      simp only [charsLt] at h ⊢
      rcases Nat.lt_trichotomy c.toNat d.toNat with g | g | g
      · rw [if_neg (by omega), if_pos g]
      · rw [if_neg (by omega), if_neg (by omega)]
        rw [if_neg (by omega), if_neg (by omega)] at h
        exact ih ds h
      · rw [if_pos g, if_neg (by omega)] at h
        exact absurd h (by simp)

lemma charsLt_trans : ∀ l1 l2 l3, charsLt l1 l2 = true → charsLt l2 l3 = true →
    charsLt l1 l3 = true := by
  intro l1
  induction l1 with
  | nil =>
    intro l2 l3 h1 h2
    cases l3 with
    | nil =>
      cases l2 with
      | nil => exact h1
      | cons d ds => simp [charsLt] at h2
    | cons e es => simp [charsLt]
  | cons c cs ih =>
    intro l2 l3 h1 h2
    cases l2 with
    | nil => simp [charsLt] at h1
    | cons d ds =>
      cases l3 with
      | nil => simp [charsLt] at h2
      | cons e es =>
        simp only [charsLt] at h1 h2 ⊢
        rcases Nat.lt_trichotomy c.toNat d.toNat with g1 | g1 | g1 <;>
          rcases Nat.lt_trichotomy d.toNat e.toNat with g2 | g2 | g2
        · rw [if_pos (by omega)]
        · rw [if_pos (by omega)]
        · rw [if_neg (by omega), if_pos (by omega)] at h2
          exact absurd h2 (by simp)
        · rw [if_pos (by omega)]
        · rw [if_neg (by omega), if_neg (by omega)] at h1 h2 ⊢
          exact ih ds es h1 h2
        · rw [if_neg (by omega), if_pos (by omega)] at h2
          exact absurd h2 (by simp)
        · rw [if_neg (by omega), if_pos (by omega)] at h1
          exact absurd h1 (by simp)
        · rw [if_neg (by omega), if_pos (by omega)] at h1
          exact absurd h1 (by simp)
        · rw [if_neg (by omega), if_pos (by omega)] at h1
          exact absurd h1 (by simp)

lemma charsLt_total_eq : ∀ l1 l2, charsLt l1 l2 = false → charsLt l2 l1 = false →
    l1 = l2 := by
  intro l1
  induction l1 with
  | nil =>
    intro l2 h1 h2
    cases l2 with
    | nil => rfl
    | cons d ds => simp [charsLt] at h1
  | cons c cs ih =>
    intro l2 h1 h2
    cases l2 with
    | nil => simp [charsLt] at h2
    | cons d ds =>
      simp only [charsLt] at h1 h2
      have hcd : ¬ c.toNat < d.toNat := by
        intro g
        rw [if_pos g] at h1
        exact absurd h1 (by simp)
      have hdc : ¬ d.toNat < c.toNat := by
        intro g
        rw [if_pos g] at h2
        exact absurd h2 (by simp)
      rw [if_neg hcd, if_neg hdc] at h1
      have heq : c.toNat = d.toNat := by omega
      have hc : c = d := Char.ext (UInt32.ext heq)
      rw [if_neg hdc, if_neg hcd] at h2
      rw [hc, ih ds h1 h2]

lemma strLt_irrefl (a : String) : strLt a a = false := charsLt_irrefl a.data

lemma strLt_asymm {a b : String} (h : strLt a b = true) : strLt b a = false :=
  charsLt_asymm a.data b.data h

lemma strLt_trans {a b c : String} (h1 : strLt a b = true) (h2 : strLt b c = true) :
    strLt a c = true :=
  charsLt_trans a.data b.data c.data h1 h2

lemma strLt_total_eq {a b : String} (h1 : strLt a b = false)
    (h2 : strLt b a = false) : a = b :=
  String.ext (charsLt_total_eq a.data b.data h1 h2)

/-- Lookup in a children map. -/
def lookupChild : List (String × Rollup) → String → Option Rollup
  | [], _ => none
  | (k, v) :: rest, key => if key = k then some v else lookupChild rest key

/-- Store through `children_[key]`: insert-or-replace at the canonical
sorted position, the association-list image of assigning through
`std::unordered_map::operator[]`. -/
def upsert : List (String × Rollup) → String → Rollup → List (String × Rollup)
  | [], key, v => [(key, v)]
  | (k, w) :: rest, key, v =>
    if strLt key k then (key, v) :: (k, w) :: rest
    else if key = k then (key, v) :: rest
    else (k, w) :: upsert rest key v

/-- `Rollup::AddInternal` (bloaty.cc:456): add `size` into the vm or
file total with `CheckedAdd`, then, if `i < names.size()`, recurse into
the child keyed `names[i]` (`children_[names[i]]` default-creates a zero
child when absent). -/
def AddInternal (r : Rollup) (names : List String) (i : Nat) (size : Nat)
    (is_vmsize : Bool) : Option Rollup :=
  match r with
  | .mk vm fl ch =>
    match (if is_vmsize then (CheckedAdd vm (size : Int)).map fun v => (v, fl)
           else (CheckedAdd fl (size : Int)).map fun f => (vm, f)) with
    | none => none
    | some (vm2, fl2) =>
      if h : i < names.length then
        match AddInternal ((lookupChild ch (names.get ⟨i, h⟩)).getD Rollup.empty)
            names (i + 1) size is_vmsize with
        | none => none
        | some child2 => some (.mk vm2 fl2 (upsert ch (names.get ⟨i, h⟩) child2))
      else some (.mk vm2 fl2 ch)
termination_by names.length - i

/-- `Rollup::AddSizes` (bloaty.cc:400): starts `AddInternal` at index 1
("We start at 1 to exclude the base map"). -/
def AddSizes (r : Rollup) (names : List String) (size : Nat) (is_vmsize : Bool) :
    Option Rollup :=
  AddInternal r names 1 size is_vmsize

/-- Modelled from the spec (§4.5): "walks into the child keyed by the
first remaining label, creating it if absent, recurses into the
remainder, and at every level adds size into vm_total or file_total
with checked signed 64-bit arithmetic" — plain head/tail recursion on
the label list, the comparison point for claim C4's index bookkeeping. -/
def addGo : Rollup → List String → Nat → Bool → Option Rollup
  | .mk vm fl ch, names, size, is_vm =>
    match (if is_vm then (CheckedAdd vm (size : Int)).map fun v => (v, fl)
           else (CheckedAdd fl (size : Int)).map fun f => (vm, f)) with
    | none => none
    | some (vm2, fl2) =>
      match names with
      | [] => some (.mk vm2 fl2 ch)
      | key :: rest =>
        match addGo ((lookupChild ch key).getD Rollup.empty) rest size is_vm with
        | none => none
        | some child2 => some (.mk vm2 fl2 (upsert ch key child2))

mutual
/-- `Rollup::Subtract` (bloaty.cc:422): subtract the other rollup's
totals (plain unchecked `int64_t -=` in the source) and recurse into
every child of `other`, default-creating a zero child in self when it
is missing. -/
def Subtract : Rollup → Rollup → Rollup
  | .mk vm fl ch, .mk ovm ofl och =>
    .mk (vm - ovm) (fl - ofl) (subChildren ch och)
  termination_by a b => (sizeOf b, sizeOf a)

/-- The children walk of `Rollup::Subtract`: the source iterates
`other.children_` upserting into `children_`; on the key-sorted
representation this is the keywise merge (self-only children are kept,
other-only children are created at zero and then subtracted into). -/
def subChildren : List (String × Rollup) → List (String × Rollup) →
    List (String × Rollup)
  | ch, [] => ch
  | [], (k, v) :: rest => (k, Subtract Rollup.empty v) :: subChildren [] rest
  | (k1, v1) :: r1, (k2, v2) :: r2 =>
    if strLt k2 k1 then
      (k2, Subtract Rollup.empty v2) :: subChildren ((k1, v1) :: r1) r2
    else if k1 = k2 then (k1, Subtract v1 v2) :: subChildren r1 r2
    else (k1, v1) :: subChildren r1 ((k2, v2) :: r2)
  termination_by l1 l2 => (sizeOf l2, sizeOf l1)
end

mutual
/-- Modelled from claim C7's words: the node-wise sum of two rollups,
"the same tree with vm_total and file_total added at every node"; child
maps are merged keywise, a child present on only one side is taken
as-is. -/
def rollupSum : Rollup → Rollup → Rollup
  | .mk v1 f1 c1, .mk v2 f2 c2 => .mk (v1 + v2) (f1 + f2) (sumChildren c1 c2)
  termination_by a b => (sizeOf b, sizeOf a)

/-- Keywise merge of children for `rollupSum`. -/
def sumChildren : List (String × Rollup) → List (String × Rollup) →
    List (String × Rollup)
  | ch, [] => ch
  | [], (k, v) :: rest => (k, v) :: sumChildren [] rest
  | (k1, v1) :: r1, (k2, v2) :: r2 =>
    if strLt k2 k1 then (k2, v2) :: sumChildren ((k1, v1) :: r1) r2
    else if k1 = k2 then (k1, rollupSum v1 v2) :: sumChildren r1 r2
    else (k1, v1) :: sumChildren r1 ((k2, v2) :: r2)
  termination_by l1 l2 => (sizeOf l2, sizeOf l1)
end

/-- True iff the rollup is the zero leaf: both totals zero, no
children. -/
def isTrivial : Rollup → Bool
  | .mk 0 0 [] => true
  | _ => false

mutual
/-- Drop recursively-trivial subtrees: a child that prunes to the zero
leaf is removed.  Comparison relation for claim C7: two rollups are
"the same up to zero husks" iff they prune to the same tree. -/
def pruneZero : Rollup → Rollup
  | .mk v f ch => .mk v f (pruneChildren ch)

/-- Children part of `pruneZero`. -/
def pruneChildren : List (String × Rollup) → List (String × Rollup)
  | [] => []
  | (k, v) :: rest =>
    if isTrivial (pruneZero v) then pruneChildren rest
    else (k, pruneZero v) :: pruneChildren rest
end

/-- The unchecked shadow of `addGo`: identical tree updates with plain
integer addition, used to characterize the value of a successful
(non-overflowing) checked run. -/
def pureAdd : Rollup → List String → Nat → Bool → Rollup
  | .mk vm fl ch, names, size, is_vm =>
    let vm2 := if is_vm then vm + (size : Int) else vm
    let fl2 := if is_vm then fl else fl + (size : Int)
    match names with
    | [] => .mk vm2 fl2 ch
    | key :: rest =>
      .mk vm2 fl2 (upsert ch key
        (pureAdd ((lookupChild ch key).getD Rollup.empty) rest size is_vm))

/-- A sequence of `AddSizes` calls applied left to right; `none` as soon
as one overflows (the source makes overflow fatal). -/
def applyCalls : Rollup → List (List String × Nat × Bool) → Option Rollup
  | r, [] => some r
  | r, (names, size, b) :: rest =>
    match AddSizes r names size b with
    | none => none
    | some r2 => applyCalls r2 rest

/-- The unchecked shadow of `applyCalls`. -/
def pureApply : Rollup → List (List String × Nat × Bool) → Rollup
  | r, [] => r
  | r, (names, size, b) :: rest =>
    pureApply (pureAdd r (names.drop 1) size b) rest

/-! Rollup lemmas (claims C4, C7, C8). -/

lemma checkedAdd_some {a v r : Int} (h : CheckedAdd a v = some r) : r = a + v := by
  unfold CheckedAdd at h
  split_ifs at h
  exact (Option.some_inj.mp h).symm

lemma drop_get_cons (l : List String) (i : Nat) (h : i < l.length) :
    l.drop i = l.get ⟨i, h⟩ :: l.drop (i + 1) := by
  simpa using List.drop_eq_getElem_cons h

lemma addInternal_eq_addGo (names : List String) :
    ∀ (i : Nat) (r : Rollup) (size : Nat) (b : Bool),
      AddInternal r names i size b = addGo r (names.drop i) size b := by
  intro i
  generalize hk : names.length - i = k
  induction k generalizing i with
  | zero =>
    intro r size b
    obtain ⟨vm, fl, ch⟩ := r
    rw [AddInternal.eq_def, List.drop_eq_nil_of_le (by omega)]
    simp only [addGo]
    cases htot : (if b then (CheckedAdd vm (size : Int)).map fun v => (v, fl)
                  else (CheckedAdd fl (size : Int)).map fun f => (vm, f)) with
    | none => rfl
    | some vf =>
      obtain ⟨vm2, fl2⟩ := vf
      dsimp only
      rw [dif_neg (by omega)]
  | succ k ih =>
    intro r size b
    have hlt : i < names.length := by omega
    obtain ⟨vm, fl, ch⟩ := r
    rw [AddInternal.eq_def, drop_get_cons names i hlt]
    simp only [addGo]
    cases htot : (if b then (CheckedAdd vm (size : Int)).map fun v => (v, fl)
                  else (CheckedAdd fl (size : Int)).map fun f => (vm, f)) with
    | none => rfl
    | some vf =>
      obtain ⟨vm2, fl2⟩ := vf
      dsimp only
      rw [dif_pos hlt, ih (i + 1) (by omega)]

/-- `AddSizes` in terms of the clean label-list recursion: the index 1
start means exactly that the first label is dropped. -/
lemma addSizes_eq_addGo (r : Rollup) (names : List String) (size : Nat) (b : Bool) :
    AddSizes r names size b = addGo r (names.drop 1) size b :=
  addInternal_eq_addGo names 1 r size b

lemma lookupChild_upsert_self (ch : List (String × Rollup)) (key : String) (v : Rollup) :
    lookupChild (upsert ch key v) key = some v := by
  induction ch with
  | nil => simp [upsert, lookupChild]
  | cons p rest ih =>
    obtain ⟨a, w⟩ := p
    simp only [upsert]
    split_ifs with h1 h2
    · simp [lookupChild]
    · simp [lookupChild]
    · simp [lookupChild, h2, ih]

lemma lookupChild_upsert_ne (ch : List (String × Rollup)) (key key2 : String)
    (v : Rollup) (h : key2 ≠ key) :
    lookupChild (upsert ch key v) key2 = lookupChild ch key2 := by
  induction ch with
  | nil => simp [upsert, lookupChild, h]
  | cons p rest ih =>
    obtain ⟨a, w⟩ := p
    simp only [upsert]
    split_ifs with h1 h2
    · simp [lookupChild, h]
    · subst h2
      simp [lookupChild, h]
    · by_cases hk : key2 = a <;> simp [lookupChild, hk, ih]

lemma upsert_upsert_same (ch : List (String × Rollup)) (key : String) (v w : Rollup) :
    upsert (upsert ch key v) key w = upsert ch key w := by
  induction ch with
  | nil => simp [upsert, strLt_irrefl]
  | cons p rest ih =>
    obtain ⟨a, u⟩ := p
    simp only [upsert]
    split_ifs with h1 h2
    · simp [upsert, strLt_irrefl, h1]
    · simp [upsert, strLt_irrefl]
    · simp [upsert, h1, h2, ih]

lemma upsert_comm (ch : List (String × Rollup)) (k1 k2 : String) (v1 v2 : Rollup)
    (h : k1 ≠ k2) :
    upsert (upsert ch k1 v1) k2 v2 = upsert (upsert ch k2 v2) k1 v1 := by
  have hlt : strLt k1 k2 = true ∨ strLt k2 k1 = true := by
    cases e1 : strLt k1 k2 with
    | true => exact Or.inl rfl
    | false =>
      cases e2 : strLt k2 k1 with
      | true => exact Or.inr rfl
      | false => exact absurd (strLt_total_eq e1 e2) h
  induction ch with
  | nil =>
    rcases hlt with hl | hl
    · simp [upsert, hl, strLt_asymm hl, h, h.symm]
    · simp [upsert, hl, strLt_asymm hl, h, h.symm]
  | cons p rest ih =>
    obtain ⟨a, u⟩ := p
    cases e1 : strLt k1 a with
    | true =>
      cases e2 : strLt k2 a with
      | true =>
        rcases hlt with hl | hl
        · simp [upsert, e1, e2, hl, strLt_asymm hl, h, h.symm]
        · simp [upsert, e1, e2, hl, strLt_asymm hl, h, h.symm]
      | false =>
        by_cases e3 : k2 = a
        · subst e3
          simp [upsert, e1, e2, strLt_asymm e1, h, h.symm, strLt_irrefl]
        · have hk21 : strLt k2 k1 = false := by
            cases e4 : strLt k2 k1 with
            | false => rfl
            | true => exact absurd (strLt_trans e4 e1) (by simp [e2])
          simp [upsert, e1, e2, e3, hk21, h, h.symm]
    | false =>
      by_cases e1b : k1 = a
      · subst e1b
        cases e2 : strLt k2 k1 with
        | true =>
          simp [upsert, e1, e2, strLt_asymm e2, h, h.symm, strLt_irrefl]
        | false =>
          have e3 : ¬ k2 = k1 := h.symm
          simp [upsert, e1, e2, e3, h, h.symm, strLt_irrefl]
      · cases e2 : strLt k2 a with
        | true =>
          have hk12 : strLt k1 k2 = false := by
            cases e4 : strLt k1 k2 with
            | false => rfl
            | true => exact absurd (strLt_trans e4 e2) (by simp [e1])
          simp [upsert, e1, e1b, e2, hk12, h, h.symm]
        | false =>
          by_cases e2b : k2 = a
          · subst e2b
            simp [upsert, e1, e1b, e2, h, h.symm, strLt_irrefl]
          · simp [upsert, e1, e1b, e2, e2b, ih]

lemma pureAdd_comm (l1 : List String) :
    ∀ (l2 : List String) (r : Rollup) (s1 s2 : Nat) (b1 b2 : Bool),
      pureAdd (pureAdd r l1 s1 b1) l2 s2 b2 =
        pureAdd (pureAdd r l2 s2 b2) l1 s1 b1 := by
  induction l1 with
  | nil =>
    intro l2 r s1 s2 b1 b2
    obtain ⟨vm, fl, ch⟩ := r
    cases l2 with
    | nil => cases b1 <;> cases b2 <;> simp [pureAdd] <;> ring_nf
    | cons k2 r2 =>
      cases b1 <;> cases b2 <;> simp [pureAdd] <;> ring_nf
  | cons k1 r1 ih =>
    intro l2 r s1 s2 b1 b2
    obtain ⟨vm, fl, ch⟩ := r
    cases l2 with
    | nil => cases b1 <;> cases b2 <;> simp [pureAdd] <;> ring_nf
    | cons k2 r2 =>
      by_cases hk : k1 = k2
      · subst hk
        cases b1 <;> cases b2 <;>
          simp [pureAdd, lookupChild_upsert_self, upsert_upsert_same, ih r2] <;>
          ring_nf
      · cases b1 <;> cases b2 <;>
          simp [pureAdd, lookupChild_upsert_ne _ _ _ _ (Ne.symm hk),
            lookupChild_upsert_ne _ _ _ _ hk, upsert_comm _ _ _ _ _ hk] <;>
          ring_nf

lemma addGo_some_eq_pure (names : List String) :
    ∀ (r : Rollup) (size : Nat) (b : Bool) (out : Rollup),
      addGo r names size b = some out → out = pureAdd r names size b := by
  induction names with
  | nil =>
    intro r size b out h
    obtain ⟨vm, fl, ch⟩ := r
    cases b
    · simp only [addGo, pureAdd] at h ⊢
      cases hca : CheckedAdd fl (size : Int) with
      | none => simp [hca] at h
      | some t =>
        simp only [hca, Option.map_some'] at h
        simp [← Option.some_inj.mp h, checkedAdd_some hca]
    · simp only [addGo, pureAdd] at h ⊢
      cases hca : CheckedAdd vm (size : Int) with
      | none => simp [hca] at h
      | some t =>
        simp only [hca, Option.map_some'] at h
        simp [← Option.some_inj.mp h, checkedAdd_some hca]
  | cons key rest ih =>
    intro r size b out h
    obtain ⟨vm, fl, ch⟩ := r
    cases b <;> simp only [addGo, pureAdd] at h ⊢
    · cases hca : CheckedAdd fl (size : Int) with
      | none => simp [hca] at h
      | some t =>
        simp only [hca, Option.map_some'] at h
        cases hgo : addGo ((lookupChild ch key).getD Rollup.empty) rest size false with
        | none => simp [hgo] at h
        | some child2 =>
          simp only [hgo] at h
          simp [← Option.some_inj.mp h, checkedAdd_some hca, ih _ _ _ _ hgo]
    · cases hca : CheckedAdd vm (size : Int) with
      | none => simp [hca] at h
      | some t =>
        simp only [hca, Option.map_some'] at h
        cases hgo : addGo ((lookupChild ch key).getD Rollup.empty) rest size true with
        | none => simp [hgo] at h
        | some child2 =>
          simp only [hgo] at h
          simp [← Option.some_inj.mp h, checkedAdd_some hca, ih _ _ _ _ hgo]

lemma applyCalls_some_eq_pure (calls : List (List String × Nat × Bool)) :
    ∀ (r out : Rollup), applyCalls r calls = some out → out = pureApply r calls := by
  induction calls with
  | nil =>
    intro r out h
    simp only [applyCalls] at h
    simpa [pureApply] using (Option.some_inj.mp h).symm
  | cons c rest ih =>
    intro r out h
    obtain ⟨names, size, b⟩ := c
    simp only [applyCalls] at h
    cases hs : AddSizes r names size b with
    | none => simp [hs] at h
    | some r2 =>
      simp only [hs] at h
      have h2 : r2 = pureAdd r (names.drop 1) size b := by
        rw [addSizes_eq_addGo] at hs
        exact addGo_some_eq_pure _ _ _ _ _ hs
      simp only [pureApply]
      rw [← h2]
      exact ih r2 out h

lemma pureApply_perm {c1 c2 : List (List String × Nat × Bool)} (h : c1.Perm c2) :
    ∀ r : Rollup, pureApply r c1 = pureApply r c2 := by
  induction h with
  | nil => intro r; rfl
  | cons x _ ih =>
    intro r
    obtain ⟨names, size, b⟩ := x
    simp only [pureApply]
    exact ih _
  | swap x y l =>
    intro r
    obtain ⟨n1, s1, b1⟩ := x
    obtain ⟨n2, s2, b2⟩ := y
    simp only [pureApply]
    rw [pureAdd_comm]
  | trans _ _ ih1 ih2 =>
    intro r
    rw [ih1, ih2]

lemma strLt_ne {a b : String} (h : strLt a b = true) : a ≠ b := by
  intro he
  subst he
  exact absurd h (by simp [strLt_irrefl])

lemma sumChildren_nil_left : ∀ l, sumChildren [] l = l := by
  intro l
  induction l with
  | nil => simp [sumChildren]
  | cons p rest ih =>
    obtain ⟨k, v⟩ := p
    simp [sumChildren, ih]

mutual

lemma subtract_self_trivial (v : Rollup) :
    isTrivial (pruneZero (Subtract v v)) = true := by
  obtain ⟨vm, fl, ch⟩ := v
  have h := subChildren_self_prune ch
  simp [Subtract, pruneZero, h, isTrivial]
termination_by sizeOf v

lemma subChildren_self_prune (ch : List (String × Rollup)) :
    pruneChildren (subChildren ch ch) = [] := by
  match ch with
  | [] => simp [subChildren, pruneChildren]
  | (k, v) :: rest =>
    have h1 := subtract_self_trivial v
    have h2 := subChildren_self_prune rest
    simp [subChildren, strLt_irrefl, pruneChildren, h1, h2]
termination_by sizeOf ch

end

mutual

lemma subtract_sum_prune (b c : Rollup) :
    pruneZero (Subtract (rollupSum b c) b) = pruneZero c := by
  obtain ⟨bv, bf, bch⟩ := b
  obtain ⟨cv, cf, cch⟩ := c
  have h := subtract_sum_prune_children bch cch
  simp only [rollupSum, Subtract, pruneZero, h]
  congr 1 <;> ring
termination_by (sizeOf c, sizeOf b)

lemma subtract_sum_prune_children (bch cch : List (String × Rollup)) :
    pruneChildren (subChildren (sumChildren bch cch) bch) = pruneChildren cch := by
  match bch, cch with
  | bch, [] =>
    have h := subChildren_self_prune bch
    cases bch with
    | nil => simp [sumChildren, subChildren, pruneChildren]
    | cons p r =>
      simp only [sumChildren]
      simp [subChildren, h, pruneChildren]
  | [], (k, v) :: rest =>
    simp [sumChildren_nil_left, subChildren, pruneChildren]
  | (k1, v1) :: r1, (k2, v2) :: r2 =>
    cases e1 : strLt k2 k1 with
    | true =>
      have ih := subtract_sum_prune_children ((k1, v1) :: r1) r2
      have hne : ¬ (k2 = k1) := strLt_ne e1
      simp only [sumChildren, e1, if_pos, if_true]
      simp only [subChildren, strLt_asymm e1, Bool.false_eq_true, if_false,
        hne, ite_false]
      simp [pruneChildren, ih]
    | false =>
      by_cases e2 : k1 = k2
      · subst e2
        have ihv := subtract_sum_prune v1 v2
        have ih := subtract_sum_prune_children r1 r2
        simp only [sumChildren, strLt_irrefl, Bool.false_eq_true, if_false,
          ite_true, subChildren, if_true]
        simp [pruneChildren, ihv, ih]
      · have e3 : strLt k1 k2 = true := by
          cases e4 : strLt k1 k2 with
          | true => rfl
          | false => exact absurd (strLt_total_eq e4 e1) e2
        have h1 := subtract_self_trivial v1
        have ih := subtract_sum_prune_children r1 ((k2, v2) :: r2)
        simp only [sumChildren, e1, Bool.false_eq_true, if_false, e2, ite_false,
          subChildren, strLt_irrefl, if_true]
        simp [pruneChildren, h1, ih]
termination_by (sizeOf cch, sizeOf bch)

end

/-- C4 counterexample: on an empty rollup, `AddSizes(["a","b"], 5, vm)`
adds at the root and creates a child keyed `"b"` only — `labels[0] =
"a"` is skipped (`AddSizes` starts `AddInternal` at index 1), so no
child keyed `"a"` exists; with the single-label vector `["a"]` no child
is created at all, refuting "descends into the child keyed by
labels[0]" for non-empty label vectors. -/
theorem c4_addsizes_counterexample :
    AddSizes Rollup.empty ["a", "b"] 5 true =
      some (Rollup.mk 5 0 [("b", Rollup.mk 5 0 [])]) ∧
    lookupChild (Rollup.mk 5 0 [("b", Rollup.mk 5 0 [])]).children "a" = none ∧
    AddSizes Rollup.empty ["a"] 7 true = some (Rollup.mk 7 0 []) := by
  refine ⟨?_, ?_, ?_⟩
  · rw [addSizes_eq_addGo]
    simp [addGo, CheckedAdd, i64min, i64max, lookupChild, upsert, Rollup.empty]
  · simp [lookupChild, Rollup.children]
  · rw [addSizes_eq_addGo]
    simp [addGo, CheckedAdd, i64min, i64max, Rollup.empty]

/-- C4 (amended): `Rollup::AddSizes(labels, size, is_vm)` skips
`labels[0]` (the base-map label): it behaves exactly as the clean
recursion `addGo` on `labels.drop 1`, which at every level adds `size`
into `vm_total` (when `is_vm`) or `file_total` (otherwise) with checked
signed 64-bit arithmetic and descends into the child keyed by the next
remaining label, creating it if absent. -/
theorem c4_addsizes_descends_from_second_label (r : Rollup)
    (labels : List String) (size : Nat) (b : Bool) :
    AddSizes r labels size b = addGo r (labels.drop 1) size b :=
  addSizes_eq_addGo r labels size b

/-- C7 counterexample: take B with a single child "x" of vm size 5 and
C the zero rollup, and A the node-wise sum of B and C.  After
`A.Subtract(B)`, a zero-total husk child "x" remains, so the result is
not equal to C (whose child set is empty): the subtract law fails
structurally as stated. -/
theorem c7_subtract_counterexample :
    Subtract
        (rollupSum (Rollup.mk 5 0 [("x", Rollup.mk 5 0 [])]) (Rollup.mk 0 0 []))
        (Rollup.mk 5 0 [("x", Rollup.mk 5 0 [])]) ≠ Rollup.mk 0 0 [] := by
  intro h
  have h2 := congrArg Rollup.children h
  simp [Subtract, rollupSum, subChildren, sumChildren, strLt_irrefl,
    Rollup.children] at h2

/-- C7 (amended): the subtract law holds numerically and up to
zero-total husk children: for A the node-wise sum of B and C,
`A.Subtract(B)` has C's totals at the root, and pruning recursively-zero
children makes it equal to C pruned the same way (the husks are exactly
the children of B absent from C, which survive as all-zero subtrees). -/
theorem c7_subtract_law_up_to_husks (b c : Rollup) :
    (Subtract (rollupSum b c) b).vm_total = c.vm_total ∧
    (Subtract (rollupSum b c) b).file_total = c.file_total ∧
    pruneZero (Subtract (rollupSum b c) b) = pruneZero c := by
  refine ⟨?_, ?_, subtract_sum_prune b c⟩
  · obtain ⟨bv, bf, bch⟩ := b
    obtain ⟨cv, cf, cch⟩ := c
    simp only [Subtract, rollupSum, Rollup.vm_total]
    ring
  · obtain ⟨bv, bf, bch⟩ := b
    obtain ⟨cv, cf, cch⟩ := c
    simp only [Subtract, rollupSum, Rollup.file_total]
    ring

/-- C8: `Rollup::AddSizes` is commutative and associative in the sense
the spec states: two permuted sequences of `AddSizes` calls applied to
an empty rollup yield equal trees, provided neither order raises the
overflow error. -/
theorem c8_addsizes_permutation_invariant
    (calls calls2 : List (List String × Nat × Bool)) (hperm : calls.Perm calls2)
    (out out2 : Rollup)
    (h1 : applyCalls Rollup.empty calls = some out)
    (h2 : applyCalls Rollup.empty calls2 = some out2) :
    out = out2 := by
  rw [applyCalls_some_eq_pure calls Rollup.empty out h1,
    applyCalls_some_eq_pure calls2 Rollup.empty out2 h2]
  exact pureApply_perm hperm Rollup.empty

/-- Witness for C8: swapping two concrete AddSizes calls gives the same
tree. -/
theorem c8_addsizes_permutation_invariant_witness :
    Rollup.mk 1 2 [("a", Rollup.mk 1 0 []), ("b", Rollup.mk 0 2 [])] =
      Rollup.mk 1 2 [("a", Rollup.mk 1 0 []), ("b", Rollup.mk 0 2 [])] :=
  c8_addsizes_permutation_invariant
    [(["m", "a"], 1, true), (["m", "b"], 2, false)]
    [(["m", "b"], 2, false), (["m", "a"], 1, true)]
    (List.Perm.swap _ _ _) _ _
    (by simp [applyCalls, addSizes_eq_addGo, addGo, CheckedAdd, i64min, i64max,
      lookupChild, upsert, Rollup.empty]; decide)
    (by simp [applyCalls, addSizes_eq_addGo, addGo, CheckedAdd, i64min, i64max,
      lookupChild, upsert, Rollup.empty]; decide)

/-! RangeSink (bloaty.cc:1257) — claim C5. -/

/-- `struct DualMap` (bloaty.cc:1187): one RangeMap for VM space and one
for file space. -/
structure DualMap where
  vm_map : RangeMap
  file_map : RangeMap

/-- One element of `RangeSink::outputs_`: an output DualMap paired with
its NameMunger.  The munger's regex engine is an external collaborator
(spec §4.4), so `NameMunger::Munge` is carried as an abstract
name-rewriting function. -/
structure SinkOutput where
  map : DualMap
  munge : String → String

/-- `RangeSink::AddFileRange` (bloaty.cc:1271): for every output, munge
the name; then — only when the sink has a translator — add the file
range into the output's file map, projecting it into the output's VM
map through `translator_->file_map`.  When `translator_` is null the
loop body computes the label and does nothing with it: the source has
no else branch. -/
def AddFileRange (outputs : List SinkOutput) (translator : Option DualMap)
    (name : String) (fileoff filesize : Nat) : List SinkOutput :=
  outputs.map fun out =>
    let label := out.munge name
    match translator with
    | some tr =>
      let p := AddRangeWithTranslation out.map.file_map fileoff filesize label
        tr.file_map out.map.vm_map
      ⟨⟨p.2, p.1⟩, out.munge⟩
    | none => out

/-- C5 (behavior of the code at the failing input): a RangeSink with an
output but no translator — exactly the base-map sink that
`ScanAndRollupFile` (bloaty.cc:1546) hands to `ProcessBaseMap`, whose
ELF implementation calls `AddFileRange` for its "[ELF Headers]",
"[AR Headers]" and "[Unmapped]" ranges — leaves every output untouched:
`AddFileRange` is a no-op without a translator, and in particular the
file map stays empty instead of receiving `[0, 10)` under the munged
name as the claim states. -/
theorem c5_addfilerange_no_translator_is_noop :
    (∀ (outputs : List SinkOutput) (name : String) (fileoff filesize : Nat),
        AddFileRange outputs none name fileoff filesize = outputs) ∧
    ((AddFileRange [⟨⟨[], []⟩, fun s => s⟩] none "[ELF Headers]" 0 10).map
        fun o => o.map.file_map) = [[]] := by
  constructor
  · intro outputs name fileoff filesize
    simp [AddFileRange]
  · simp [AddFileRange]

/-! BloatyDoMain pre-scan validation (bloaty.cc:1732) — claim C9. -/

/-- The pre-scan validation of `BloatyDoMain` (bloaty.cc:1736-1742): a
missing input filename, or `max_rows_per_level < 1`, raises a
configuration error (the modelled strings are the thrown messages)
before any file is scanned; otherwise option processing continues. -/
def BloatyDoMainChecks (filenames : List String) (max_rows_per_level : Int) :
    Except String Unit :=
  if filenames.length = 0 then Except.error "must specify at least one file"
  else if max_rows_per_level < 1 then
    Except.error "max_rows_per_level must be at least 1"
  else Except.ok ()

/-- C9 counterexample: `-n 0` (max_rows_per_level = 0) IS reported as a
configuration error before scanning, contrary to the claim that 0
selects unlimited rows without error. -/
theorem c9_max_rows_zero_rejected :
    BloatyDoMainChecks ["file.bin"] 0 =
      Except.error "max_rows_per_level must be at least 1" := by
  rfl

/-- C9 (amended): `max_rows_per_level = 0` (the CLI flag `-n 0`) does
not select unlimited rows: every value below 1 is rejected as a
configuration error "max_rows_per_level must be at least 1" before any
scanning starts, and values ≥ 1 pass the pre-scan validation. -/
theorem c9_max_rows_validation (filenames : List String) (n : Int)
    (hf : filenames ≠ []) :
    (n < 1 → BloatyDoMainChecks filenames n =
        Except.error "max_rows_per_level must be at least 1") ∧
    (1 ≤ n → BloatyDoMainChecks filenames n = Except.ok ()) := by
  have hlen : ¬ filenames.length = 0 := by
    simpa using hf
  constructor
  · intro hn
    simp [BloatyDoMainChecks, hlen, hn]
  · intro hn
    simp [BloatyDoMainChecks, hlen]
    omega

/-- Witness for C9's amended theorem at a concrete configuration. -/
theorem c9_max_rows_validation_witness :
    ((0 : Int) < 1 → BloatyDoMainChecks ["file.bin"] 0 =
        Except.error "max_rows_per_level must be at least 1") ∧
    ((1 : Int) ≤ 0 → BloatyDoMainChecks ["file.bin"] 0 = Except.ok ()) :=
  c9_max_rows_validation ["file.bin"] 0 (by simp)

/-! RangeMap::ComputeRollup (bloaty.cc:1087) — claims C3 and C10. -/

/-- The iterator advance of ComputeRollup (bloaty.cc:1135, "Advance the
iterators if its range is behind the current point"): drop leading
entries whose end is at or before `current`. -/
def advanceIter (current : Nat) : List (Nat × Entry) → List (Nat × Entry)
  | [] => []
  | (s, e) :: rest =>
    if e.end_ ≤ current then advanceIter current rest else (s, e) :: rest

/-- One pass of the per-map loop inside ComputeRollup's main iteration
(bloaty.cc:1126-1157): for map `i`, push the filename when
`filename_position == i`, advance the iterator, then push a label and
lower `next_break`: an exhausted or not-yet-started iterator contributes
"[None]" (a pending start lowers `next_break`), a containing entry
contributes its label, sets `have_data` and lowers `next_break` by its
end.  Returns (keys, next_break, have_data, advanced iterators); the
final filename push at `i == iters.size()` is the base case. -/
def rollupScan (filename : String) (fp : Int) (current : Nat) :
    Nat → List (List (Nat × Entry)) →
      List String × Nat × Bool × List (List (Nat × Entry))
  | i, [] => (if fp = (i : Int) then [filename] else [], u64max, false, [])
  | i, it :: rest =>
    let r := rollupScan filename fp current (i + 1) rest
    let pre := if fp = (i : Int) then [filename] else []
    match advanceIter current it with
    | [] => (pre ++ "[None]" :: r.1, r.2.1, r.2.2.1, ([] : List (Nat × Entry)) :: r.2.2.2)
    | (s, e) :: tl =>
      if s > current then
        (pre ++ "[None]" :: r.1, min r.2.1 s, r.2.2.1, ((s, e) :: tl) :: r.2.2.2)
      else
        (pre ++ e.label :: r.1, min r.2.1 e.end_, true, ((s, e) :: tl) :: r.2.2.2)

/-- The main loop of ComputeRollup (bloaty.cc:1120, `while (true)`),
collecting in order the `(keys, current, next_break)` triples passed to
`func` (`func` is invoked only when `have_data`; the loop breaks when
`next_break == UINTPTR_MAX`).  The loop leaves `current` strictly
increasing and below UINTPTR_MAX, so the structural fuel
`UINTPTR_MAX - current` seeded by `ComputeRollup` never runs out before
the break. -/
def rollupLoop (filename : String) (fp : Int) :
    Nat → Nat → List (List (Nat × Entry)) → List (List String × Nat × Nat)
  | 0, _, _ => []
  | fuel + 1, current, iters =>
    let r := rollupScan filename fp current 0 iters
    if r.2.1 = u64max then []
    else
      (if r.2.2.1 then [(r.1, current, r.2.1)] else []) ++
        rollupLoop filename fp fuel r.2.1 r.2.2.2

/-- The initialisation step of ComputeRollup (bloaty.cc:1097,
`current = std::min(current, iters.back()->first)`); the `[]` branch is
unreachable once the empty-map check has passed. -/
def initFold (c : Nat) (m : RangeMap) : Nat :=
  match m with
  | [] => c
  | (s, _) :: _ => min c s

/-- `RangeMap::ComputeRollup` (bloaty.cc:1087), as the ordered list of
`(keys, current, next_break)` triples passed to `func`.  `none` models
the ways initialisation cannot proceed: `assert(range_maps.size() >
0)`, the dereference of `begin()` on an empty input map (undefined
behavior in the source), and `assert(current != UINTPTR_MAX)`. -/
def ComputeRollup (range_maps : List RangeMap) (filename : String) (fp : Int) :
    Option (List (List String × Nat × Nat)) :=
  if range_maps.isEmpty then none
  else if range_maps.any List.isEmpty then none
  else
    let current := range_maps.foldl initFold u64max
    if current = u64max then none
    else some (rollupLoop filename fp (u64max - current) current range_maps)

/-- Every entry of the map ends strictly below UINTPTR_MAX, so no end
collides with ComputeRollup's sentinel. -/
def EndsBelow (m : RangeMap) : Prop := ∀ p ∈ m, p.2.end_ < u64max

instance (m : RangeMap) : Decidable (EndsBelow m) :=
  List.decidableBAll _ m

lemma advanceIter_sublist (current : Nat) : ∀ l, (advanceIter current l).Sublist l
  | [] => List.Sublist.refl _
  | (s, e) :: rest => by
    simp only [advanceIter]
    split_ifs with h
    · exact (advanceIter_sublist current rest).cons _
    · exact List.Sublist.refl _

lemma advanceIter_mem {current : Nat} : ∀ {l : List (Nat × Entry)}
    {p : Nat × Entry}, p ∈ l → current < p.2.end_ → p ∈ advanceIter current l := by
  intro l
  induction l with
  | nil => intro p h; simp at h
  | cons q rest ih =>
    intro p hp hend
    obtain ⟨s, e⟩ := q
    simp only [advanceIter]
    split_ifs with h
    · rcases List.mem_cons.1 hp with hp | hp
      · subst hp; simp only at hend; omega
      · exact ih hp hend
    · exact hp

lemma advanceIter_wf {current : Nat} : ∀ {l : List (Nat × Entry)}, WF l →
    WF (advanceIter current l) := by
  intro l
  induction l with
  | nil => intro h; exact h
  | cons q rest ih =>
    intro h
    obtain ⟨s, e⟩ := q
    simp only [advanceIter]
    split_ifs with hcut
    · refine ih ⟨fun p hp => h.1 p (by simp [hp]), ?_⟩
      exact (List.chain'_cons'.1 h.2).2
    · exact h

lemma advanceIter_head_gt {current : Nat} : ∀ {l : List (Nat × Entry)}
    {s : Nat} {e : Entry} {tl}, advanceIter current l = (s, e) :: tl →
    current < e.end_ := by
  intro l
  induction l with
  | nil => intro s e tl h; simp [advanceIter] at h
  | cons q rest ih =>
    intro s e tl h
    obtain ⟨s0, e0⟩ := q
    simp only [advanceIter] at h
    split_ifs at h with hcut
    · exact ih h
    · obtain ⟨h1, h2⟩ := List.cons.injEq .. ▸ h
      cases h1
      omega

lemma wf_head_key_le : ∀ (tl : RangeMap) (s0 : Nat) (e0 : Entry),
    WF ((s0, e0) :: tl) → ∀ p ∈ (s0, e0) :: tl, s0 ≤ p.1 := by
  intro tl
  induction tl with
  | nil =>
    intro s0 e0 _ p hp
    simp only [List.mem_singleton] at hp
    subst hp
    exact le_rfl
  | cons q rest ih =>
    intro s0 e0 hwf p hp
    obtain ⟨s1, e1⟩ := q
    have hok : EntryOk (s0, e0) := hwf.1 (s0, e0) (by simp)
    have hb : Before (s0, e0) (s1, e1) := (List.chain'_cons.1 hwf.2).1
    have hwf2 : WF ((s1, e1) :: rest) :=
      ⟨fun q hq => hwf.1 q (by simp [hq]), (List.chain'_cons.1 hwf.2).2⟩
    rcases List.mem_cons.1 hp with hp | hp
    · subst hp; exact le_rfl
    · have := ih s1 e1 hwf2 p hp
      have h1 : s0 < e0.end_ := hok
      have h2 : e0.end_ ≤ s1 := hb
      omega

lemma rollupScan_its (fn : String) (fp : Int) (current : Nat) :
    ∀ (iters : List (List (Nat × Entry))) (i : Nat),
      (rollupScan fn fp current i iters).2.2.2 = iters.map (advanceIter current) := by
  intro iters
  induction iters with
  | nil => intro i; simp [rollupScan]
  | cons it rest ih =>
    intro i
    simp only [rollupScan]
    cases hadv : advanceIter current it with
    | nil => simp [hadv, ih]
    | cons p tl =>
      obtain ⟨s, e⟩ := p
      by_cases h : s > current
      · simp [hadv, h, ih]
      · simp [hadv, h, ih]

lemma rollupScan_nb_le (fn : String) (fp : Int) (current : Nat) :
    ∀ (iters : List (List (Nat × Entry))) (i : Nat),
      (rollupScan fn fp current i iters).2.1 ≤ u64max := by
  intro iters
  induction iters with
  | nil => intro i; simp [rollupScan]
  | cons it rest ih =>
    intro i
    simp only [rollupScan]
    cases hadv : advanceIter current it with
    | nil => simpa using ih (i + 1)
    | cons p tl =>
      obtain ⟨s, e⟩ := p
      by_cases h : s > current
      · simp only [hadv, h, if_true]
        exact le_trans (min_le_left _ _) (ih (i + 1))
      · simp only [hadv, h, if_false]
        exact le_trans (min_le_left _ _) (ih (i + 1))

lemma rollupScan_nb_gt (fn : String) (fp : Int) (current : Nat)
    (hcur : current < u64max) :
    ∀ (iters : List (List (Nat × Entry))) (i : Nat),
      current < (rollupScan fn fp current i iters).2.1 := by
  intro iters
  induction iters with
  | nil => intro i; simpa [rollupScan] using hcur
  | cons it rest ih =>
    intro i
    simp only [rollupScan]
    cases hadv : advanceIter current it with
    | nil => simpa using ih (i + 1)
    | cons p tl =>
      obtain ⟨s, e⟩ := p
      by_cases h : s > current
      · simp only [hadv, h, if_true]
        exact lt_min (ih (i + 1)) h
      · simp only [hadv, h, if_false]
        exact lt_min (ih (i + 1)) (advanceIter_head_gt hadv)

lemma rollupScan_hd (fn : String) (fp : Int) (current : Nat) :
    ∀ (iters : List (List (Nat × Entry))) (i : Nat),
      (rollupScan fn fp current i iters).2.2.1 = true →
      ∃ it ∈ iters, ∃ s e tl, advanceIter current it = (s, e) :: tl ∧
        s ≤ current ∧ current < e.end_ ∧
        (rollupScan fn fp current i iters).2.1 ≤ e.end_ := by
  intro iters
  induction iters with
  | nil => intro i h; simp [rollupScan] at h
  | cons it rest ih =>
    intro i h
    simp only [rollupScan] at h ⊢
    cases hadv : advanceIter current it with
    | nil =>
      rw [hadv] at h
      simp only at h ⊢
      obtain ⟨it2, hit2, s, e, tl, h1, h2, h3, h4⟩ := ih (i + 1) h
      exact ⟨it2, by simp [hit2], s, e, tl, h1, h2, h3, h4⟩
    | cons p tl =>
      obtain ⟨s, e⟩ := p
      rw [hadv] at h
      by_cases hc : s > current
      · simp only [hc, if_true] at h ⊢
        obtain ⟨it2, hit2, s2, e2, tl2, h1, h2, h3, h4⟩ := ih (i + 1) h
        exact ⟨it2, by simp [hit2], s2, e2, tl2, h1, h2, h3,
          le_trans (min_le_left _ _) h4⟩
      · simp only [hc, if_false] at h ⊢
        exact ⟨it, by simp, s, e, tl, hadv, by omega,
          advanceIter_head_gt hadv, min_le_right _ _⟩

lemma rollupScan_cover_hd (fn : String) (fp : Int) (current : Nat) :
    ∀ (iters : List (List (Nat × Entry))) (i : Nat),
      (∀ it ∈ iters, WF it) →
      ∀ a, current ≤ a →
        (∃ it ∈ iters, covers it a) →
        a < (rollupScan fn fp current i iters).2.1 →
        (rollupScan fn fp current i iters).2.2.1 = true := by
  intro iters
  induction iters with
  | nil =>
    intro i _ a _ hcov _
    simp at hcov
  | cons it rest ih =>
    intro i hwf a ha hcov hlt
    obtain ⟨itc, hitc, p, hp, hp1, hp2⟩ := hcov
    simp only [rollupScan] at hlt ⊢
    rcases List.mem_cons.1 hitc with hitc | hitc
    · -- the covering map is the head map
      subst hitc
      have hpend : current < p.2.end_ := by omega
      have hpadv : p ∈ advanceIter current itc := advanceIter_mem hp hpend
      cases hadv : advanceIter current itc with
      | nil => rw [hadv] at hpadv; simp at hpadv
      | cons q tl =>
        obtain ⟨s0, e0⟩ := q
        rw [hadv] at hpadv hlt
        by_cases hc : s0 > current
        · -- the head starts later; but then next_break ≤ s0 ≤ p.1 ≤ a
          exfalso
          simp only [hc, if_true] at hlt
          have hwfadv : WF ((s0, e0) :: tl) :=
            hadv ▸ advanceIter_wf (hwf itc (by simp))
          have hs0 : s0 ≤ p.1 := wf_head_key_le tl s0 e0 hwfadv p hpadv
          have := min_le_right (rollupScan fn fp current (i + 1) rest).2.1 s0
          omega
        · simp [hc]
    · -- the covering map is in the tail
      cases hadv : advanceIter current it with
      | nil =>
        rw [hadv] at hlt
        simp only at hlt ⊢
        exact ih (i + 1) (fun m hm => hwf m (by simp [hm])) a ha
          ⟨itc, hitc, p, hp, hp1, hp2⟩ hlt
      | cons q tl =>
        obtain ⟨s0, e0⟩ := q
        rw [hadv] at hlt
        by_cases hc : s0 > current
        · simp only [hc, if_true] at hlt ⊢
          exact ih (i + 1) (fun m hm => hwf m (by simp [hm])) a ha
            ⟨itc, hitc, p, hp, hp1, hp2⟩
            (lt_of_lt_of_le hlt (min_le_left _ _))
        · simp [hc]

lemma rollupScan_nb_max_no_cover (fn : String) (fp : Int) (current : Nat)
    (iters : List (List (Nat × Entry))) (i : Nat)
    (hwf : ∀ it ∈ iters, WF it) (heb : ∀ it ∈ iters, EndsBelow it)
    (hnb : (rollupScan fn fp current i iters).2.1 = u64max) :
    ∀ a, current ≤ a → ¬ ∃ it ∈ iters, covers it a := by
  intro a ha hcov
  obtain ⟨it, hit, p, hp, hp1, hp2⟩ := hcov
  have hau : a < u64max := lt_trans hp2 (heb it hit p hp)
  have hd := rollupScan_cover_hd fn fp current iters i hwf a ha
    ⟨it, hit, p, hp, hp1, hp2⟩ (by rw [hnb]; exact hau)
  obtain ⟨it2, hit2, s, e, tl, h1, h2, h3, h4⟩ :=
    rollupScan_hd fn fp current iters i hd
  rw [hnb] at h4
  have hmem : (s, e) ∈ it2 :=
    (advanceIter_sublist current it2).subset (by rw [h1]; simp)
  have := heb it2 hit2 (s, e) hmem
  simp only at this
  omega

lemma rollupLoop_mono (fn : String) (fp : Int) :
    ∀ (fuel current : Nat) (iters : List (List (Nat × Entry))),
      current < u64max →
      ∀ t ∈ rollupLoop fn fp fuel current iters,
        current ≤ t.2.1 ∧ t.2.1 < t.2.2 := by
  intro fuel
  induction fuel with
  | zero => intro current iters _ t ht; simp [rollupLoop] at ht
  | succ fuel ih =>
    intro current iters hcur t ht
    simp only [rollupLoop] at ht
    split_ifs at ht with hnb hhd
    · simp at ht
    · have hnb_le := rollupScan_nb_le fn fp current iters 0
      have hnb_gt := rollupScan_nb_gt fn fp current hcur iters 0
      have hnb_lt : (rollupScan fn fp current 0 iters).2.1 < u64max :=
        lt_of_le_of_ne hnb_le hnb
      rcases List.mem_append.1 ht with ht | ht
      · simp only [List.mem_singleton] at ht
        subst ht
        exact ⟨le_rfl, hnb_gt⟩
      · have := ih _ _ hnb_lt t ht
        exact ⟨le_trans (le_of_lt hnb_gt) this.1, this.2⟩
    · have hnb_le := rollupScan_nb_le fn fp current iters 0
      have hnb_gt := rollupScan_nb_gt fn fp current hcur iters 0
      have hnb_lt : (rollupScan fn fp current 0 iters).2.1 < u64max :=
        lt_of_le_of_ne hnb_le hnb
      rw [List.nil_append] at ht
      have := ih _ _ hnb_lt t ht
      exact ⟨le_trans (le_of_lt hnb_gt) this.1, this.2⟩

lemma rollupLoop_chain (fn : String) (fp : Int) :
    ∀ (fuel current : Nat) (iters : List (List (Nat × Entry))),
      current < u64max →
      List.Chain' (fun a b => a.2.2 ≤ b.2.1) (rollupLoop fn fp fuel current iters) := by
  intro fuel
  induction fuel with
  | zero => intro current iters _; simp [rollupLoop]
  | succ fuel ih =>
    intro current iters hcur
    simp only [rollupLoop]
    split_ifs with hnb hhd
    · exact List.chain'_nil
    · have hnb_le := rollupScan_nb_le fn fp current iters 0
      have hnb_lt : (rollupScan fn fp current 0 iters).2.1 < u64max :=
        lt_of_le_of_ne hnb_le hnb
      simp only [List.singleton_append]
      rw [List.chain'_cons']
      refine ⟨?_, ih _ _ hnb_lt⟩
      intro y hy
      have hym := List.mem_of_mem_head? hy
      exact (rollupLoop_mono fn fp fuel _ _ hnb_lt y hym).1
    · have hnb_le := rollupScan_nb_le fn fp current iters 0
      have hnb_lt : (rollupScan fn fp current 0 iters).2.1 < u64max :=
        lt_of_le_of_ne hnb_le hnb
      simpa using ih _ _ hnb_lt

lemma rollupLoop_subset (fn : String) (fp : Int) :
    ∀ (fuel current : Nat) (iters : List (List (Nat × Entry))),
      current < u64max → (∀ it ∈ iters, WF it) →
      ∀ t ∈ rollupLoop fn fp fuel current iters,
        ∃ it ∈ iters, ∃ p ∈ it, p.1 ≤ t.2.1 ∧ t.2.1 < p.2.end_ ∧
          t.2.2 ≤ p.2.end_ := by
  intro fuel
  induction fuel with
  | zero => intro current iters _ _ t ht; simp [rollupLoop] at ht
  | succ fuel ih =>
    intro current iters hcur hwf t ht
    simp only [rollupLoop] at ht
    have hits := rollupScan_its fn fp current iters 0
    have hwf2 : ∀ it ∈ (rollupScan fn fp current 0 iters).2.2.2, WF it := by
      rw [hits]
      intro it2 hit2
      obtain ⟨it0, hit0, rfl⟩ := List.mem_map.1 hit2
      exact advanceIter_wf (hwf it0 hit0)
    split_ifs at ht with hnb hhd
    · simp at ht
    · have hnb_le := rollupScan_nb_le fn fp current iters 0
      have hnb_lt : (rollupScan fn fp current 0 iters).2.1 < u64max :=
        lt_of_le_of_ne hnb_le hnb
      rcases List.mem_append.1 ht with ht | ht
      · simp only [List.mem_singleton] at ht
        subst ht
        obtain ⟨it2, hit2, s, e, tl, h1, h2, h3, h4⟩ :=
          rollupScan_hd fn fp current iters 0 hhd
        have hmem : (s, e) ∈ it2 :=
          (advanceIter_sublist current it2).subset (by rw [h1]; simp)
        exact ⟨it2, hit2, (s, e), hmem, h2, h3, h4⟩
      · obtain ⟨it2, hit2, p, hp, h1, h2, h3⟩ := ih _ _ hnb_lt hwf2 t ht
        rw [hits] at hit2
        obtain ⟨it0, hit0, rfl⟩ := List.mem_map.1 hit2
        exact ⟨it0, hit0, p, (advanceIter_sublist current it0).subset hp, h1, h2, h3⟩
    · have hnb_le := rollupScan_nb_le fn fp current iters 0
      have hnb_lt : (rollupScan fn fp current 0 iters).2.1 < u64max :=
        lt_of_le_of_ne hnb_le hnb
      rw [List.nil_append] at ht
      obtain ⟨it2, hit2, p, hp, h1, h2, h3⟩ := ih _ _ hnb_lt hwf2 t ht
      rw [hits] at hit2
      obtain ⟨it0, hit0, rfl⟩ := List.mem_map.1 hit2
      exact ⟨it0, hit0, p, (advanceIter_sublist current it0).subset hp, h1, h2, h3⟩

lemma rollupLoop_super (fn : String) (fp : Int) :
    ∀ (fuel current : Nat) (iters : List (List (Nat × Entry))),
      current < u64max → u64max - current ≤ fuel →
      (∀ it ∈ iters, WF it) → (∀ it ∈ iters, EndsBelow it) →
      ∀ a, current ≤ a → (∃ it ∈ iters, covers it a) →
        ∃ t ∈ rollupLoop fn fp fuel current iters, t.2.1 ≤ a ∧ a < t.2.2 := by
  intro fuel
  induction fuel with
  | zero => intro current iters hcur hfuel; omega
  | succ fuel ih =>
    intro current iters hcur hfuel hwf heb a ha hcov
    simp only [rollupLoop]
    by_cases hnb : (rollupScan fn fp current 0 iters).2.1 = u64max
    · exact absurd hcov (rollupScan_nb_max_no_cover fn fp current iters 0 hwf heb hnb a ha)
    · rw [if_neg hnb]
      have hnb_le := rollupScan_nb_le fn fp current iters 0
      have hnb_gt := rollupScan_nb_gt fn fp current hcur iters 0
      have hnb_lt : (rollupScan fn fp current 0 iters).2.1 < u64max :=
        lt_of_le_of_ne hnb_le hnb
      by_cases hanb : a < (rollupScan fn fp current 0 iters).2.1
      · have hhd := rollupScan_cover_hd fn fp current iters 0 hwf a ha hcov hanb
        refine ⟨((rollupScan fn fp current 0 iters).1, current,
          (rollupScan fn fp current 0 iters).2.1), ?_, ha, hanb⟩
        rw [hhd]
        simp
      · have hits := rollupScan_its fn fp current iters 0
        have hwf2 : ∀ it ∈ (rollupScan fn fp current 0 iters).2.2.2, WF it := by
          rw [hits]
          intro it2 hit2
          obtain ⟨it0, hit0, rfl⟩ := List.mem_map.1 hit2
          exact advanceIter_wf (hwf it0 hit0)
        have heb2 : ∀ it ∈ (rollupScan fn fp current 0 iters).2.2.2, EndsBelow it := by
          rw [hits]
          intro it2 hit2
          obtain ⟨it0, hit0, rfl⟩ := List.mem_map.1 hit2
          exact fun p hp => heb it0 hit0 p ((advanceIter_sublist current it0).subset hp)
        have hcov2 : ∃ it ∈ (rollupScan fn fp current 0 iters).2.2.2, covers it a := by
          obtain ⟨it0, hit0, p, hp, h1, h2⟩ := hcov
          refine ⟨advanceIter current it0, ?_, p, advanceIter_mem hp (by omega), h1, h2⟩
          rw [hits]
          exact List.mem_map_of_mem _ hit0
        obtain ⟨t, htl, h1, h2⟩ := ih (rollupScan fn fp current 0 iters).2.1
          (rollupScan fn fp current 0 iters).2.2.2 hnb_lt (by omega) hwf2 heb2
          a (by omega) hcov2
        exact ⟨t, List.mem_append_right _ htl, h1, h2⟩

/-- The initial `current` of ComputeRollup: minimum over first keys. -/
lemma initCurrent_le_init (maps : List RangeMap) :
    ∀ c : Nat, List.foldl initFold c maps ≤ c := by
  induction maps with
  | nil => intro c; simp
  | cons m rest ih =>
    intro c
    simp only [List.foldl_cons]
    refine le_trans (ih _) ?_
    cases m with
    | nil => exact le_rfl
    | cons p tl =>
      obtain ⟨s, e⟩ := p
      exact min_le_left c s

lemma initCurrent_le_start (maps : List RangeMap) :
    ∀ (c : Nat) (m : RangeMap), m ∈ maps → ∀ (s : Nat) (e : Entry) (tl : RangeMap),
      m = (s, e) :: tl → List.foldl initFold c maps ≤ s := by
  induction maps with
  | nil => intro c m hm; simp at hm
  | cons m0 rest ih =>
    intro c m hm s e tl hme
    simp only [List.foldl_cons]
    rcases List.mem_cons.1 hm with hm | hm
    · subst hm
      rw [hme]
      exact le_trans (initCurrent_le_init rest _)
        (by simp only [initFold]; exact min_le_right c s)
    · exact ih _ m hm s e tl hme

/-- The initial `current` is below the sentinel whenever some non-empty
well-formed map with in-range ends is present. -/
lemma initCurrent_lt {maps : List RangeMap} (hne : maps ≠ [])
    (hall : ∀ m ∈ maps, m ≠ [] ∧ WF m ∧ EndsBelow m) :
    List.foldl initFold u64max maps < u64max := by
  obtain ⟨m0, rest, rfl⟩ := List.exists_cons_of_ne_nil hne
  obtain ⟨hm0, hwf0, heb0⟩ := hall m0 (by simp)
  obtain ⟨p, tl, rfl⟩ := List.exists_cons_of_ne_nil hm0
  obtain ⟨s, e⟩ := p
  have h1 : List.foldl initFold u64max (((s, e) :: tl) :: rest) ≤ s :=
    initCurrent_le_start _ u64max _ (by simp) s e tl rfl
  have h2 : s < e.end_ := hwf0.1 (s, e) (by simp)
  have h3 : e.end_ < u64max := heb0 (s, e) (by simp)
  omega

/-- Every covered address is at or after the initial `current`. -/
lemma initCurrent_le_covered {maps : List RangeMap} {m : RangeMap} (hm : m ∈ maps)
    (hwf : WF m) {a : Nat} (hcov : covers m a) :
    List.foldl initFold u64max maps ≤ a := by
  obtain ⟨p, hp, h1, h2⟩ := hcov
  obtain ⟨s0, e0, tl, rfl⟩ : ∃ s0 e0 tl, m = (s0, e0) :: tl := by
    cases m with
    | nil => simp at hp
    | cons q tl => exact ⟨q.1, q.2, tl, by simp⟩
  have ha : List.foldl initFold u64max maps ≤ s0 :=
    initCurrent_le_start _ u64max _ hm s0 e0 tl rfl
  have hb : s0 ≤ p.1 := wf_head_key_le tl s0 e0 hwf p hp
  omega

/-- C10: ComputeRollup's initialisation dereferences each input map's
first entry to seed the sweep at the minimum first key, so the error
branch is reached whenever the input vector is empty or some input map
is empty; under the precondition that every map is non-empty (together
with the representation invariants every built map satisfies),
initialisation succeeds and the sweep produces a result. -/
theorem c10_computeRollup_nonempty_precondition :
    (∀ (fn : String) (fp : Int), ComputeRollup [] fn fp = none) ∧
    (∀ (maps : List RangeMap) (fn : String) (fp : Int), [] ∈ maps →
        ComputeRollup maps fn fp = none) ∧
    (∀ (maps : List RangeMap) (fn : String) (fp : Int), maps ≠ [] →
        (∀ m ∈ maps, m ≠ [] ∧ WF m ∧ EndsBelow m) →
        ∃ out, ComputeRollup maps fn fp = some out) := by
  refine ⟨?_, ?_, ?_⟩
  · intro fn fp
    simp [ComputeRollup]
  · intro maps fn fp hmem
    unfold ComputeRollup
    split_ifs with h1 h2
    · rfl
    · rfl
    · exact absurd (List.any_eq_true.2 ⟨[], hmem, rfl⟩) h2
  · intro maps fn fp hne hall
    unfold ComputeRollup
    have h1 : ¬ (maps.isEmpty = true) := by
      simpa [List.isEmpty_iff] using hne
    have h2 : ¬ (maps.any List.isEmpty = true) := by
      simp only [List.any_eq_true, not_exists]
      intro m
      simp only [not_and]
      intro hm hemp
      exact (hall m hm).1 (List.isEmpty_iff.mp hemp)
    have h3 : ¬ (List.foldl initFold u64max maps = u64max) :=
      Nat.ne_of_lt (initCurrent_lt hne hall)
    rw [if_neg h1, if_neg h2]
    simp only
    rw [if_neg h3]
    exact ⟨_, rfl⟩

/-- Witness for C10 at a concrete one-map input. -/
theorem c10_computeRollup_nonempty_precondition_witness :
    ∃ out, ComputeRollup [[(0, ⟨"A", 10, u64max⟩)]] "f" (-1) = some out :=
  c10_computeRollup_nonempty_precondition.2.2 [[(0, ⟨"A", 10, u64max⟩)]] "f" (-1)
    (by simp) (by decide)

/-- C3 counterexample: `AddRange` legitimately builds an entry whose end
is UINTPTR_MAX = 2^64 - 1; on that map ComputeRollup's `next_break`
collides with its own `UINTPTR_MAX` break sentinel, the loop stops
before invoking `func`, and the sweep emits nothing although the map's
domain is non-empty — the union of the emitted intervals does not equal
the union of the input domains. -/
theorem c3_computeRollup_counterexample :
    AddRange [] (u64max - 1) 1 "A" = [(u64max - 1, ⟨"A", u64max, u64max⟩)] ∧
    ComputeRollup [[(u64max - 1, ⟨"A", u64max, u64max⟩)]] "f" (-1) = some [] ∧
    covers [(u64max - 1, ⟨"A", u64max, u64max⟩)] (u64max - 1) := by
  refine ⟨by decide, by decide, by decide⟩

/-- C3 (amended): for every ComputeRollup call over non-empty
well-formed maps all of whose entries end strictly below UINTPTR_MAX
(the sentinel value; an entry ending exactly there is silently
truncated, see the counterexample), the sweep succeeds, the intervals
passed to `func` are non-empty, emitted in ascending order and pairwise
disjoint, every emitted interval lies inside the domain of some input
map and conversely every covered address lies in some emitted interval
(the union of the emitted intervals equals the union of the maps'
domains), and each emitted interval has a containing entry in some map
— intervals on which every map yields "[None]" are never passed. -/
theorem c3_computeRollup_sweep (maps : List RangeMap) (fn : String) (fp : Int)
    (hne : maps ≠ []) (hall : ∀ m ∈ maps, m ≠ [] ∧ WF m ∧ EndsBelow m) :
    ∃ out, ComputeRollup maps fn fp = some out ∧
      (∀ t ∈ out, t.2.1 < t.2.2) ∧
      List.Chain' (fun a b => a.2.2 ≤ b.2.1) out ∧
      (∀ t ∈ out, ∀ x, t.2.1 ≤ x → x < t.2.2 → ∃ m ∈ maps, covers m x) ∧
      (∀ a, (∃ m ∈ maps, covers m a) → ∃ t ∈ out, t.2.1 ≤ a ∧ a < t.2.2) ∧
      (∀ t ∈ out, ∃ m ∈ maps, covers m t.2.1) := by
  have hwf : ∀ m ∈ maps, WF m := fun m hm => (hall m hm).2.1
  have heb : ∀ m ∈ maps, EndsBelow m := fun m hm => (hall m hm).2.2
  have hcur : List.foldl initFold u64max maps < u64max := initCurrent_lt hne hall
  refine ⟨rollupLoop fn fp (u64max - List.foldl initFold u64max maps)
    (List.foldl initFold u64max maps) maps, ?_, ?_, ?_, ?_, ?_, ?_⟩
  · unfold ComputeRollup
    rw [if_neg (by simpa [List.isEmpty_iff] using hne)]
    rw [if_neg ?hany]
    case hany =>
      simp only [List.any_eq_true, not_exists]
      intro m
      simp only [not_and]
      intro hm hemp
      exact (hall m hm).1 (List.isEmpty_iff.mp hemp)
    simp only
    rw [if_neg (Nat.ne_of_lt hcur)]
  · intro t ht
    exact (rollupLoop_mono fn fp _ _ _ hcur t ht).2
  · exact rollupLoop_chain fn fp _ _ _ hcur
  · intro t ht x hx1 hx2
    obtain ⟨m, hm, p, hp, h1, h2, h3⟩ := rollupLoop_subset fn fp _ _ _ hcur hwf t ht
    exact ⟨m, hm, p, hp, by omega, by omega⟩
  · intro a hcov
    obtain ⟨m, hm, hc⟩ := hcov
    exact rollupLoop_super fn fp _ _ _ hcur le_rfl hwf heb a
      (initCurrent_le_covered hm (hwf m hm) hc) ⟨m, hm, hc⟩
  · intro t ht
    obtain ⟨m, hm, p, hp, h1, h2, h3⟩ := rollupLoop_subset fn fp _ _ _ hcur hwf t ht
    exact ⟨m, hm, p, hp, h1, h2⟩

/-- Witness for C3's amended theorem at a concrete map. -/
theorem c3_computeRollup_sweep_witness :
    ∃ out, ComputeRollup [[(0, ⟨"A", 10, u64max⟩)]] "f" (-1) = some out ∧
      (∀ t ∈ out, t.2.1 < t.2.2) ∧
      List.Chain' (fun a b => a.2.2 ≤ b.2.1) out ∧
      (∀ t ∈ out, ∀ x, t.2.1 ≤ x → x < t.2.2 →
        ∃ m ∈ [[(0, (⟨"A", 10, u64max⟩ : Entry))]], covers m x) ∧
      (∀ a, (∃ m ∈ [[(0, (⟨"A", 10, u64max⟩ : Entry))]], covers m a) →
        ∃ t ∈ out, t.2.1 ≤ a ∧ a < t.2.2) ∧
      (∀ t ∈ out, ∃ m ∈ [[(0, (⟨"A", 10, u64max⟩ : Entry))]], covers m t.2.1) :=
  c3_computeRollup_sweep [[(0, ⟨"A", 10, u64max⟩)]] "f" (-1) (by simp) (by decide)

/-! Rollup::ComputeRows (bloaty.cc:519) — claim C6. -/

/-- `others_label` (bloaty.cc:394). -/
def others_label : String := "[Other]"

/-- `struct RollupRow` (bloaty.h:449), restricted to the fields the
collapse manipulates: the name and the two signed sizes.  The percent
fields are floating-point presentation and the child vectors belong to
deeper levels; neither affects this level's row list. -/
structure RollupRow where
  name : String
  vmsize : Int
  filesize : Int
deriving DecidableEq, Repr

/-- `Options::SortBy` (the `-s vm|file|both` selection). -/
inductive SortBy where
  | vmsize
  | filesize
  | both
deriving DecidableEq, Repr

/-- `val_to_rank` of the rank lambda (bloaty.cc:542): the magnitude
selected by sort_by. -/
def valToRank (sb : SortBy) (row : RollupRow) : Int :=
  match sb with
  | .vmsize => |row.vmsize|
  | .filesize => |row.filesize|
  | .both => max |row.vmsize| |row.filesize|

/-- The rank tuple order (bloaty.cc:560): numeric rank
`INT64_MAX - val` ascending (so big values sort first), name breaking
ties low-to-high; as the non-strict comparison a sort consumes.  The
source sorts with `std::sort` on the strict tuple `<`; any comparison
sort yields this unique order since distinct rows never tie on
`(rank, name)` here. -/
def rankLe (sb : SortBy) (a b : RollupRow) : Bool :=
  let ra := i64max - valToRank sb a
  let rb := i64max - valToRank sb b
  if ra < rb then true
  else if rb < ra then false
  else !(strLt b.name a.name)

/-- The first-pass rank (bloaty.cc:570 `collapse_rank`): a leading
`top_name = (name != "[None]")` component keeps "[None]" rows first
(never collapsed away), then the rank tuple. -/
def collapseLe (sb : SortBy) (a b : RollupRow) : Bool :=
  let ta : Bool := !(a.name = "[None]" : Bool)
  let tb : Bool := !(b.name = "[None]" : Bool)
  match ta, tb with
  | false, true => true
  | true, false => false
  | _, _ => rankLe sb a b

/-- The two solitary-row prunes at the top of ComputeRows
(bloaty.cc:525, 533): a lone "[None]"/"[Unmapped]" row below the top
level, or a lone row repeating the parent's name, clears the list. -/
def pruneSolitary (is_toplevel : Bool) (parentName : String)
    (rows : List RollupRow) : List RollupRow :=
  let rows1 :=
    match is_toplevel, rows with
    | false, [r] =>
      if r.name = "[None]" ∨ r.name = "[Unmapped]" then [] else rows
    | _, _ => rows
  match rows1 with
  | [r] => if r.name = parentName then [] else rows1
  | _ => rows1

/-- The first sort (bloaty.cc:578): `std::sort` with the
collapse_rank comparator. -/
def sortedForCollapse (sb : SortBy) (rows : List RollupRow) :
    List RollupRow :=
  List.insertionSort (fun a b => collapseLe sb a b = true) rows

/-- The filter loop (bloaty.cc:585): `i` starts at `size - 1` and the
last row is erased while `i >= max_rows_per_level`, so when the list is
longer than max_rows the loop runs `size - max_rows` times, each time
popping the lowest-ranked row and accumulating its sizes into the
eventual "[Other]" row — and, in diff mode, the like-named base child's
totals into others_base — with checked arithmetic (a CheckedAdd throw
becomes `none`).  The count is passed explicitly; with
max_rows_per_level = 0 the source's `i--` would wrap `size_t` and index
out of bounds, which BloatyDoMain's validation makes unreachable. -/
def collapseLoop (base : Option Rollup) :
    Nat → List RollupRow → Int → Int → Int → Int →
      Option (List RollupRow × Int × Int × Int × Int)
  | 0, rows, ovm, ofl, bvm, bfl => some (rows, ovm, ofl, bvm, bfl)
  | count + 1, rows, ovm, ofl, bvm, bfl =>
    match rows.getLast? with
    | none => some (rows, ovm, ofl, bvm, bfl)
    | some last =>
      match CheckedAdd ovm last.vmsize with
      | none => none
      | some ovm2 =>
        match CheckedAdd ofl last.filesize with
        | none => none
        | some ofl2 =>
          match base with
          | some b =>
            match lookupChild b.children last.name with
            | some child =>
              match CheckedAdd bvm child.vm_total with
              | none => none
              | some bvm2 =>
                match CheckedAdd bfl child.file_total with
                | none => none
                | some bfl2 =>
                  collapseLoop base count rows.dropLast ovm2 ofl2 bvm2 bfl2
            | none => collapseLoop base count rows.dropLast ovm2 ofl2 bvm bfl
          | none => collapseLoop base count rows.dropLast ovm2 ofl2 bvm bfl

/-- One level of Rollup::ComputeRows (bloaty.cc:519), producing the
final row list for this level: prune solitary rows, return early if
empty, sort by collapse_rank, pop rows beyond max_rows_per_level into
"[Other]", push the "[Other]" row when it is nonzero (also feeding the
synthetic others_rollup with checked adds, bloaty.cc:603), and re-sort
by rank.  Percent computation (floats) and the recursion into child
levels (bloaty.cc:620) present the same rows and are out of scope. -/
def computeRowsLevel (is_toplevel : Bool) (parentName : String)
    (rows : List RollupRow) (sb : SortBy) (maxRows : Nat)
    (base : Option Rollup) : Option (List RollupRow) :=
  let rows2 := pruneSolitary is_toplevel parentName rows
  if rows2.isEmpty then some rows2
  else
    let sorted := sortedForCollapse sb rows2
    match collapseLoop base (sorted.length - maxRows) sorted 0 0 0 0 with
    | none => none
    | some (kept, ovm, ofl, _, _) =>
      match (if 0 < |ovm| ∨ 0 < |ofl| then
               (CheckedAdd 0 ovm).bind fun _ =>
                 (CheckedAdd 0 ofl).map fun _ => (0 : Int)
             else some 0) with
      | none => none
      | some _ =>
        let withOther :=
          if 0 < |ovm| ∨ 0 < |ofl| then
            kept ++ [⟨others_label, ovm, ofl⟩]
          else kept
        some (List.insertionSort (fun a b => rankLe sb a b = true) withOther)

/-- The solitary-row prunes either leave the list alone or clear it. -/
lemma pruneSolitary_eq_or (t : Bool) (p : String) (rows : List RollupRow) :
    pruneSolitary t p rows = rows ∨ pruneSolitary t p rows = [] := by
  rcases t with _ | _ <;>
    rcases rows with _ | ⟨r, _ | ⟨r2, rest⟩⟩ <;>
      simp [pruneSolitary] <;> (try split_ifs) <;> (try simp) <;> tauto

/-- What the filter loop computes when it succeeds: the first
`length - count` rows survive and the accumulators absorb the sizes of
the dropped suffix. -/
lemma collapseLoop_spec (base : Option Rollup) (count : Nat) :
    ∀ (rows : List RollupRow) (ovm ofl bvm bfl : Int)
      (res : List RollupRow × Int × Int × Int × Int),
      collapseLoop base count rows ovm ofl bvm bfl = some res →
      res.1 = rows.take (rows.length - count) ∧
      res.2.1 = ovm +
        (((rows.drop (rows.length - count)).map RollupRow.vmsize).sum) ∧
      res.2.2.1 = ofl +
        (((rows.drop (rows.length - count)).map RollupRow.filesize).sum) := by
  induction count with
  | zero =>
    intro rows ovm ofl bvm bfl res h
    simp only [collapseLoop, Option.some.injEq] at h
    subst h
    refine ⟨?_, ?_, ?_⟩ <;> simp
  | succ n ih =>
    intro rows ovm ofl bvm bfl res h
    rcases List.eq_nil_or_concat' rows with rfl | ⟨front, last, rfl⟩
    · simp only [collapseLoop, List.getLast?_nil, Option.some.injEq] at h
      subst h
      refine ⟨?_, ?_, ?_⟩ <;> simp
    · simp only [collapseLoop, List.getLast?_concat, List.dropLast_concat] at h
      have hlen : (front ++ [last]).length = front.length + 1 := by simp
      cases hvm : CheckedAdd ovm last.vmsize with
      | none => rw [hvm] at h; simp at h
      | some ovm2 =>
        rw [hvm] at h
        cases hfl : CheckedAdd ofl last.filesize with
        | none => rw [hfl] at h; simp at h
        | some ofl2 =>
          rw [hfl] at h
          have hk : (front ++ [last]).length - (n + 1) =
              front.length - n := by simp
          have hkle : front.length - n ≤ front.length := Nat.sub_le _ _
          have htake : (front ++ [last]).take (front.length - n) =
              front.take (front.length - n) :=
            List.take_append_of_le_length hkle
          have hdrop : (front ++ [last]).drop (front.length - n) =
              front.drop (front.length - n) ++ [last] :=
            List.drop_append_of_le_length hkle
          have hfin : ∀ bvm2 bfl2,
              collapseLoop base n front ovm2 ofl2 bvm2 bfl2 = some res →
              res.1 = (front ++ [last]).take ((front ++ [last]).length - (n + 1)) ∧
              res.2.1 = ovm +
                (((front ++ [last]).drop
                  ((front ++ [last]).length - (n + 1))).map RollupRow.vmsize).sum ∧
              res.2.2.1 = ofl +
                (((front ++ [last]).drop
                  ((front ++ [last]).length - (n + 1))).map RollupRow.filesize).sum := by
            intro bvm2 bfl2 hrec
            obtain ⟨h1, h2, h3⟩ := ih front ovm2 ofl2 bvm2 bfl2 res hrec
            rw [hk, htake, hdrop]
            refine ⟨h1, ?_, ?_⟩
            · rw [h2, checkedAdd_some hvm]
              simp
              try ring
            · rw [h3, checkedAdd_some hfl]
              simp
              try ring
          cases base with
          | none => exact hfin _ _ h
          | some b =>
            dsimp only at h
            cases hlc : lookupChild b.children last.name with
            | none => rw [hlc] at h; exact hfin _ _ h
            | some child =>
              simp only [hlc] at h
              cases hbv : CheckedAdd bvm child.vm_total with
              | none => simp [hbv] at h
              | some bvm2 =>
                simp only [hbv] at h
                cases hbf : CheckedAdd bfl child.file_total with
                | none => simp [hbf] at h
                | some bfl2 =>
                  simp only [hbf] at h
                  exact hfin _ _ h

/-- C6: counterexample to "each level of output holds at most
max_rows_per_level rows".  Four rows with max_rows_per_level = 3: the
loop collapses only the lowest-ranked row, and the synthetic "[Other]"
row carrying its sizes is pushed back afterwards, so the level shows
3 + 1 = 4 rows. -/
theorem c6_collapse_counterexample :
    computeRowsLevel true "p"
        [⟨"a", 100, 0⟩, ⟨"b", 90, 0⟩, ⟨"c", 80, 0⟩, ⟨"d", 70, 0⟩]
        SortBy.vmsize 3 none =
      some [⟨"a", 100, 0⟩, ⟨"b", 90, 0⟩, ⟨"c", 80, 0⟩,
        ⟨others_label, 70, 0⟩] ∧
    ((computeRowsLevel true "p"
        [⟨"a", 100, 0⟩, ⟨"b", 90, 0⟩, ⟨"c", 80, 0⟩, ⟨"d", 70, 0⟩]
        SortBy.vmsize 3 none).getD []).length = 3 + 1 := by
  decide

/-- C6 (amended): a level that ComputeRows finishes holds at most
max_rows_per_level + 1 rows, and any "[Other]" row among them carries
exactly the summed vmsize and filesize of the rows dropped beyond
position max_rows_per_level in collapse order (provided
max_rows_per_level ≥ 1 — below that the source loop indexes out of
bounds — and no input row already uses the reserved "[Other]" name). -/
theorem c6_collapse_row_bound (top : Bool) (pname : String)
    (rows : List RollupRow) (sb : SortBy) (maxRows : Nat)
    (base : Option Rollup) (out : List RollupRow)
    (hmax : 1 ≤ maxRows)
    (hother : ∀ r ∈ rows, r.name ≠ others_label)
    (hout : computeRowsLevel top pname rows sb maxRows base = some out) :
    out.length ≤ maxRows + 1 ∧
    ∀ r ∈ out, r.name = others_label →
      r.vmsize = (((sortedForCollapse sb (pruneSolitary top pname rows)).drop
        maxRows).map RollupRow.vmsize).sum ∧
      r.filesize = (((sortedForCollapse sb (pruneSolitary top pname rows)).drop
        maxRows).map RollupRow.filesize).sum := by
  simp only [computeRowsLevel, List.isEmpty_iff] at hout
  set rows2 := pruneSolitary top pname rows with hrows2
  set sorted := sortedForCollapse sb rows2 with hsorted
  have hmem2 : ∀ r ∈ rows2, r.name ≠ others_label := by
    intro r hr
    rcases pruneSolitary_eq_or top pname rows with he | he
    · exact hother r (by rw [hrows2, he] at hr; exact hr)
    · rw [hrows2, he] at hr
      simp at hr
  by_cases hemp : rows2 = []
  · rw [if_pos hemp] at hout
    have hoeq : out = rows2 := (Option.some_inj.mp hout).symm
    rw [hoeq, hemp]
    refine ⟨by simp, ?_⟩
    intro r hr
    simp at hr
  · rw [if_neg hemp] at hout
    cases hcl : collapseLoop base (sorted.length - maxRows) sorted 0 0 0 0 with
    | none => rw [hcl] at hout; simp at hout
    | some res =>
      obtain ⟨kept, ovm, ofl, bvm, bfl⟩ := res
      rw [hcl] at hout
      dsimp only at hout
      obtain ⟨hkept, hovm, hofl⟩ :=
        collapseLoop_spec base (sorted.length - maxRows) sorted 0 0 0 0
          (kept, ovm, ofl, bvm, bfl) hcl
      dsimp only at hkept hovm hofl
      have hkle : sorted.length - (sorted.length - maxRows) ≤ maxRows := by
        omega
      have hkeptlen : kept.length ≤ maxRows := by
        rw [hkept, List.length_take]
        omega
      have hdropEq : sorted.drop (sorted.length - (sorted.length - maxRows)) =
          sorted.drop maxRows := by
        rcases Nat.le_total maxRows sorted.length with hle | hle
        · have : sorted.length - (sorted.length - maxRows) = maxRows := by
            omega
          rw [this]
        · have hk : sorted.length - (sorted.length - maxRows) =
              sorted.length := by omega
          rw [hk, List.drop_length, List.drop_eq_nil_of_le hle]
      have hkeptmem : ∀ r ∈ kept, r.name ≠ others_label := by
        intro r hr
        refine hmem2 r ?_
        have h1 : r ∈ sorted := by
          rw [hkept] at hr
          exact List.take_subset _ _ hr
        exact (List.perm_insertionSort _ rows2).subset h1
      cases hch : (if 0 < |ovm| ∨ 0 < |ofl| then
          (CheckedAdd 0 ovm).bind fun _ =>
            (CheckedAdd 0 ofl).map fun _ => (0 : Int)
          else some 0) with
      | none => rw [hch] at hout; simp at hout
      | some c =>
        rw [hch] at hout
        dsimp only at hout
        cases Option.some_inj.mp hout
        by_cases hz : 0 < |ovm| ∨ 0 < |ofl|
        · rw [if_pos hz]
          constructor
          · rw [List.length_insertionSort, List.length_append]
            simp
            omega
          · intro r hr hname
            have hrm : r ∈ kept ++ [(⟨others_label, ovm, ofl⟩ : RollupRow)] :=
              (List.perm_insertionSort _ _).subset hr
            rcases List.mem_append.mp hrm with hrk | hro
            · exact absurd hname (hkeptmem r hrk)
            · have : r = (⟨others_label, ovm, ofl⟩ : RollupRow) := by
                simpa using hro
              subst this
              constructor
              · show ovm = _
                rw [hovm, hdropEq]
                simp
              · show ofl = _
                rw [hofl, hdropEq]
                simp
        · rw [if_neg hz]
          constructor
          · rw [List.length_insertionSort]
            omega
          · intro r hr hname
            have hrk : r ∈ kept := (List.perm_insertionSort _ _).subset hr
            exact absurd hname (hkeptmem r hrk)

/-- Witness for C6's amended theorem at the counterexample input. -/
theorem c6_collapse_row_bound_witness :
    ([⟨"a", 100, 0⟩, ⟨"b", 90, 0⟩, ⟨"c", 80, 0⟩,
        (⟨others_label, 70, 0⟩ : RollupRow)] : List RollupRow).length ≤ 3 + 1 ∧
    ∀ r ∈ ([⟨"a", 100, 0⟩, ⟨"b", 90, 0⟩, ⟨"c", 80, 0⟩,
        (⟨others_label, 70, 0⟩ : RollupRow)] : List RollupRow),
      r.name = others_label →
      r.vmsize = (((sortedForCollapse SortBy.vmsize (pruneSolitary true "p"
        [⟨"a", 100, 0⟩, ⟨"b", 90, 0⟩, ⟨"c", 80, 0⟩, ⟨"d", 70, 0⟩])).drop
        3).map RollupRow.vmsize).sum ∧
      r.filesize = (((sortedForCollapse SortBy.vmsize (pruneSolitary true "p"
        [⟨"a", 100, 0⟩, ⟨"b", 90, 0⟩, ⟨"c", 80, 0⟩, ⟨"d", 70, 0⟩])).drop
        3).map RollupRow.filesize).sum :=
  c6_collapse_row_bound true "p"
    [⟨"a", 100, 0⟩, ⟨"b", 90, 0⟩, ⟨"c", 80, 0⟩, ⟨"d", 70, 0⟩]
    SortBy.vmsize 3 none
    [⟨"a", 100, 0⟩, ⟨"b", 90, 0⟩, ⟨"c", 80, 0⟩, ⟨others_label, 70, 0⟩]
    (by decide) (by decide) (by decide)

end BloatyModel
